import Mathlib

/-!
# The identifier-indexed graph container of `example/graph.h`

A shallow embedding of `example::Graph<NodeType>`: the five vectors and the id
counter become a record of lists, every member function becomes a function on
that record, and an `assert` that does not hold or an undefined operation ends
the call with an explicit outcome that still carries the state of the object at
that moment.
-/

namespace Example

/-! ## Data model -/

/-- Largest value of the 32-bit `int` that holds identifiers. -/
def INT_MAX : Int := 2147483647

/-- How a member function ends: it returns a value, one of its `assert`s does
not hold (the program aborts), or it leaves defined behaviour (signed overflow
of the counter, an iterator outside its vector). -/
inductive Outcome (β : Type) where
  | ok (val : β) : Outcome β
  | assert_failed : Outcome β
  | undefined : Outcome β
deriving DecidableEq, Repr

/-- The private `struct Edge { int from, to; }`. -/
structure Edge where
  from_ : Int
  to_ : Int
deriving DecidableEq, Repr

/-- The data members of `Graph<NodeType>`, vectors as lists. -/
structure Graph (α : Type) where
  current_id_ : Int
  nodes_ : List α
  adjacencies_ : List (List Int)
  node_ids_ : List Int
  edges_ : List Edge
  edge_ids_ : List Int
deriving DecidableEq, Repr

/-- The constructor `Graph()`: counter 0 and five empty vectors. -/
def Graph.empty {α : Type} : Graph α :=
  { current_id_ := 0, nodes_ := [], adjacencies_ := [], node_ids_ := [],
    edges_ := [], edge_ids_ := [] }

/-! ## Standard-library helpers -/

/-- The loop of `std::lower_bound` on `[first, first + len)`: halve the range,
move right of `middle` when `*middle < val`, keep the left half otherwise.
The first argument bounds the number of iterations. -/
def lower_bound_loop (v : List Int) (val : Int) : Nat → Nat → Nat → Nat
  | 0, first, _ => first
  | fuel + 1, first, len =>
    if len = 0 then first
    else
      let half := len / 2
      let middle := first + half
      match v[middle]? with
      | none => first
      | some x =>
        if x < val then lower_bound_loop v val fuel (middle + 1) (len - half - 1)
        else lower_bound_loop v val fuel first half

/-- The call `std::lower_bound(v.begin(), v.end(), val)` as the distance of the
returned iterator from `v.begin()`; `v.length` stands for `v.end()`. -/
def lower_bound (v : List Int) (val : Int) : Nat :=
  lower_bound_loop v val v.length 0 v.length

/-- The call `v.insert(v.begin() + i, a)`. -/
def vec_insert {β : Type} (v : List β) (i : Nat) (a : β) : List β :=
  v.take i ++ a :: v.drop i

/-- The call `v.erase(v.begin() + i)`. -/
def vec_erase {β : Type} (v : List β) (i : Nat) : List β :=
  v.take i ++ v.drop (i + 1)

/-! ## Member functions -/

variable {α : Type}

/-- The const member `Graph::node`. -/
def Graph.node (g : Graph α) (node_id : Int) : Outcome α :=
  let lb := lower_bound g.node_ids_ node_id
  if lb = g.node_ids_.length then .assert_failed
  else if g.node_ids_[lb]? ≠ some node_id then .assert_failed
  else
    match g.nodes_[lb]? with
    | some n => .ok n
    | none => .undefined

/-- The member `Graph::num_adjacencies`. -/
def Graph.num_adjacencies (g : Graph α) (node_id : Int) : Outcome Nat :=
  let lb := lower_bound g.node_ids_ node_id
  if lb = g.node_ids_.length then .assert_failed
  else if g.node_ids_[lb]? ≠ some node_id then .assert_failed
  else
    match g.adjacencies_[lb]? with
    | some adj => .ok adj.length
    | none => .undefined

/-- The test `lower_bound == v.end() || id < *lower_bound` of the two sorted
inserts. -/
def insert_position_ok (v : List Int) (lb : Nat) (id : Int) : Prop :=
  lb = v.length ∨ ∃ x, v[lb]? = some x ∧ id < x

instance (v : List Int) (lb : Nat) (id : Int) : Decidable (insert_position_ok v lb id) :=
  match h : v[lb]? with
  | none =>
    if hl : lb = v.length then isTrue (Or.inl hl)
    else isFalse (by rintro (h1 | ⟨x, h1, _⟩); exact hl h1; simp [h] at h1)
  | some y =>
    if hl : lb = v.length then isTrue (Or.inl hl)
    else if hy : id < y then isTrue (Or.inr ⟨y, h, hy⟩)
    else isFalse (by
      rintro (h1 | ⟨x, h1, h2⟩)
      · exact hl h1
      · rw [h] at h1; cases h1; exact hy h2)

/-- The member `Graph::insert_node`. The second component is the object when
the call ends. -/
def Graph.insert_node (g : Graph α) (node : α) : Outcome Int × Graph α :=
  if INT_MAX ≤ g.current_id_ then (.undefined, g)
  else
    let id := g.current_id_ + 1
    let g1 := { g with current_id_ := id }
    let lb := lower_bound g1.node_ids_ id
    if ¬ insert_position_ok g1.node_ids_ lb id then (.assert_failed, g1)
    else if g1.nodes_.length < lb ∨ g1.adjacencies_.length < lb then (.undefined, g1)
    else
      (.ok id,
        { g1 with
          node_ids_ := vec_insert g1.node_ids_ lb id
          nodes_ := vec_insert g1.nodes_ lb node
          adjacencies_ := vec_insert g1.adjacencies_ lb [] })

/-- The member `Graph::erase_node`. -/
def Graph.erase_node (g : Graph α) (node_id : Int) : Outcome Unit × Graph α :=
  let lb := lower_bound g.node_ids_ node_id
  if lb = g.node_ids_.length then (.assert_failed, g)
  else if g.node_ids_[lb]? ≠ some node_id then (.assert_failed, g)
  else if g.nodes_.length ≤ lb ∨ g.adjacencies_.length ≤ lb then (.undefined, g)
  else
    (.ok (),
      { g with
        node_ids_ := vec_erase g.node_ids_ lb
        nodes_ := vec_erase g.nodes_ lb
        adjacencies_ := vec_erase g.adjacencies_ lb })

/-- The member `Graph::insert_edge`: first the sorted insert of the new id and
the edge record, then the update of the adjacency list of `from`. -/
def Graph.insert_edge (g : Graph α) (from_node to_node : Int) : Outcome Int × Graph α :=
  if INT_MAX ≤ g.current_id_ then (.undefined, g)
  else
    let id := g.current_id_ + 1
    let g1 := { g with current_id_ := id }
    let lb := lower_bound g1.edge_ids_ id
    if ¬ insert_position_ok g1.edge_ids_ lb id then (.assert_failed, g1)
    else if g1.edges_.length < lb then (.undefined, g1)
    else
      let g2 :=
        { g1 with
          edge_ids_ := vec_insert g1.edge_ids_ lb id
          edges_ := vec_insert g1.edges_ lb ⟨from_node, to_node⟩ }
      let lb2 := lower_bound g2.node_ids_ from_node
      if lb2 = g2.node_ids_.length then (.assert_failed, g2)
      else if g2.node_ids_[lb2]? ≠ some from_node then (.assert_failed, g2)
      else
        match g2.adjacencies_[lb2]? with
        | none => (.undefined, g2)
        | some adj =>
          if to_node ∈ adj then (.assert_failed, g2)
          else (.ok id, { g2 with adjacencies_ := g2.adjacencies_.set lb2 (adj ++ [to_node]) })

/-- The member `Graph::erase_edge`. -/
def Graph.erase_edge (g : Graph α) (edge_id : Int) : Outcome Unit × Graph α :=
  let lb := lower_bound g.edge_ids_ edge_id
  if lb = g.edge_ids_.length then (.assert_failed, g)
  else if g.edge_ids_[lb]? ≠ some edge_id then (.assert_failed, g)
  else if g.edges_.length ≤ lb then (.undefined, g)
  else
    (.ok (),
      { g with
        edge_ids_ := vec_erase g.edge_ids_ lb
        edges_ := vec_erase g.edges_ lb })

/-! ## Call sequences -/

/-- One call of a modifier of the container. -/
inductive Op (α : Type) where
  | insert_node (node : α) : Op α
  | erase_node (node_id : Int) : Op α
  | insert_edge (from_node to_node : Int) : Op α
  | erase_edge (edge_id : Int) : Op α
deriving DecidableEq, Repr

/-- Forget the returned value of an erase, keep the id an insert returns. -/
def Outcome.issued : Outcome Int → Outcome (Option Int)
  | .ok id => .ok (some id)
  | .assert_failed => .assert_failed
  | .undefined => .undefined

/-- Forget the `void` result of an erase. -/
def Outcome.no_id : Outcome Unit → Outcome (Option Int)
  | .ok _ => .ok none
  | .assert_failed => .assert_failed
  | .undefined => .undefined

/-- Perform one call; the result is the id it issued, if it issues one. -/
def Graph.apply (g : Graph α) : Op α → Outcome (Option Int) × Graph α
  | .insert_node node => ((g.insert_node node).1.issued, (g.insert_node node).2)
  | .erase_node node_id => ((g.erase_node node_id).1.no_id, (g.erase_node node_id).2)
  | .insert_edge from_node to_node =>
    ((g.insert_edge from_node to_node).1.issued, (g.insert_edge from_node to_node).2)
  | .erase_edge edge_id => ((g.erase_edge edge_id).1.no_id, (g.erase_edge edge_id).2)

/-- Perform the calls in order, as long as each one returns; the result is the
list of the ids issued, oldest first, and the final object. -/
def Graph.run : List (Op α) → Graph α → Option (List Int × Graph α)
  | [], g => some ([], g)
  | op :: ops, g =>
    match g.apply op with
    | (.ok r, g1) =>
      match Graph.run ops g1 with
      | some (ids, g2) => some (r.toList ++ ids, g2)
      | none => none
    | _ => none

/-- The states the container can be in: the freshly constructed object and
whatever a returning call of a modifier makes of a reachable state. -/
inductive Reachable : Graph α → Prop where
  | init : Reachable Graph.empty
  | step (g : Graph α) (op : Op α) (r : Option Int) (g1 : Graph α) :
      Reachable g → g.apply op = (.ok r, g1) → Reachable g1

/-! ## Representation predicates -/

/-- The list is strictly ascending. -/
def StrictAsc (v : List Int) : Prop := v.Pairwise (· < ·)

/-- The adjacency list stored for node `id`, when `id` is in `node_ids_`. -/
def Graph.adjacency (g : Graph α) (id : Int) : Option (List Int) :=
  if id ∈ g.node_ids_ then g.adjacencies_[g.node_ids_.indexOf id]? else none

/-- The edge record stored for edge `id`, when `id` is in `edge_ids_`. -/
def Graph.edge (g : Graph α) (id : Int) : Option Edge :=
  if id ∈ g.edge_ids_ then g.edges_[g.edge_ids_.indexOf id]? else none

/-- The payload stored for node `id`, when `id` is in `node_ids_`. -/
def Graph.payload (g : Graph α) (id : Int) : Option α :=
  if id ∈ g.node_ids_ then g.nodes_[g.node_ids_.indexOf id]? else none

/-- The representation invariant of the container: both id vectors ascend
strictly, the parallel vectors have equal lengths, and every stored id lies
between 1 and the counter. -/
structure Graph.Inv (g : Graph α) : Prop where
  node_ids_asc : StrictAsc g.node_ids_
  nodes_len : g.nodes_.length = g.node_ids_.length
  adjacencies_len : g.adjacencies_.length = g.node_ids_.length
  edge_ids_asc : StrictAsc g.edge_ids_
  edges_len : g.edges_.length = g.edge_ids_.length
  node_ids_bound : ∀ id ∈ g.node_ids_, 1 ≤ id ∧ id ≤ g.current_id_
  edge_ids_bound : ∀ id ∈ g.edge_ids_, 1 ≤ id ∧ id ≤ g.current_id_
  counter_nonneg : 0 ≤ g.current_id_

/-- The object after `insert_edge` has taken the next id and stored the edge
record, before it looks at the adjacency list of `from`. -/
def Graph.with_edge (g : Graph α) (from_node to_node : Int) : Graph α :=
  { g with
    current_id_ := g.current_id_ + 1
    edge_ids_ := g.edge_ids_ ++ [g.current_id_ + 1]
    edges_ := g.edges_ ++ [⟨from_node, to_node⟩] }

instance (v : List Int) : Decidable (StrictAsc v) := by
  unfold StrictAsc
  infer_instance

/-! ## Sample states -/

/-- Two nodes with payloads 10 and 20, ids 1 and 2, no edge. -/
def two_nodes : Graph Nat :=
  { current_id_ := 2, nodes_ := [10, 20], adjacencies_ := [[], []], node_ids_ := [1, 2],
    edges_ := [], edge_ids_ := [] }

/-- The state `two_nodes` after `insert_node(30)`. -/
def three_nodes : Graph Nat :=
  { current_id_ := 3, nodes_ := [10, 20, 30], adjacencies_ := [[], [], []],
    node_ids_ := [1, 2, 3], edges_ := [], edge_ids_ := [] }

/-- A state with a gap in the ids: nodes 1 and 3, node 1 adjacent to 3. -/
def gap_nodes : Graph Nat :=
  { current_id_ := 4, nodes_ := [10, 30], adjacencies_ := [[3], []], node_ids_ := [1, 3],
    edges_ := [⟨1, 3⟩], edge_ids_ := [4] }

/-- Two nodes and the two edges 1 -> 2 (id 3) and 2 -> 1 (id 4). -/
def two_edges : Graph Nat :=
  { current_id_ := 4, nodes_ := [10, 20], adjacencies_ := [[2], [1]], node_ids_ := [1, 2],
    edges_ := [⟨1, 2⟩, ⟨2, 1⟩], edge_ids_ := [3, 4] }

/-! ## Adjacency lists against edge records -/

/-- The id `b` is in the adjacency list of the stored node `a`. -/
def Graph.has_adjacency (g : Graph α) (a b : Int) : Prop :=
  ∃ adj, g.adjacency a = some adj ∧ b ∈ adj

/-- Some edge record in `edges_` is `(a, b)`. -/
def Graph.has_edge (g : Graph α) (a b : Int) : Prop :=
  (⟨a, b⟩ : Edge) ∈ g.edges_

/-- Adjacency entries and stored edges agree. -/
def Graph.adjacency_consistent (g : Graph α) : Prop :=
  ∀ a b, g.has_adjacency a b ↔ g.has_edge a b

/-- The call is an `erase_node`. -/
def Op.is_erase_node : Op α → Bool
  | .erase_node _ => true
  | _ => false

/-- The call is an `erase_edge`. -/
def Op.is_erase_edge : Op α → Bool
  | .erase_edge _ => true
  | _ => false

/-- The state after `insert_node(10)`, `insert_edge(1, 2)`, `erase_edge(2)`:
the edge is gone, its adjacency entry is not. -/
def stale_adjacency : Graph Nat :=
  { current_id_ := 2, nodes_ := [10], adjacencies_ := [[2]], node_ids_ := [1],
    edges_ := [], edge_ids_ := [] }

/-- The state after `insert_node(10)`, `insert_edge(1, 2)`, `erase_node(1)`:
the node is gone, its outgoing edge is not. -/
def dangling_edge : Graph Nat :=
  { current_id_ := 2, nodes_ := [], adjacencies_ := [], node_ids_ := [],
    edges_ := [⟨1, 2⟩], edge_ids_ := [2] }

/-- The scenario state after node A (payload 1.0) and node B (payload 2.0). -/
def payloads_ab : Graph ℚ :=
  { current_id_ := 2, nodes_ := [1.0, 2.0], adjacencies_ := [[], []], node_ids_ := [1, 2],
    edges_ := [], edge_ids_ := [] }

/-- The state `payloads_ab` after `insert_edge(1, 2)`. -/
def linked_ab : Graph ℚ :=
  { current_id_ := 3, nodes_ := [1.0, 2.0], adjacencies_ := [[2], []], node_ids_ := [1, 2],
    edges_ := [⟨1, 2⟩], edge_ids_ := [3] }

/-- The state `two_nodes` after `insert_edge(1, 2)`, which returns 3. -/
def link_made : Graph Nat :=
  { current_id_ := 3, nodes_ := [10, 20], adjacencies_ := [[2], []], node_ids_ := [1, 2],
    edges_ := [⟨1, 2⟩], edge_ids_ := [3] }

/-- The state `link_made` after `insert_node(30)`. -/
def link_grown : Graph Nat :=
  { current_id_ := 4, nodes_ := [10, 20, 30], adjacencies_ := [[2], [], []],
    node_ids_ := [1, 2, 4], edges_ := [⟨1, 2⟩], edge_ids_ := [3] }

/-- The state `link_grown` after `erase_edge(3)`. -/
def link_erased : Graph Nat :=
  { current_id_ := 4, nodes_ := [10, 20, 30], adjacencies_ := [[2], [], []],
    node_ids_ := [1, 2, 4], edges_ := [], edge_ids_ := [] }

/-- The state `link_erased` after `erase_node(2)`. -/
def link_stale : Graph Nat :=
  { current_id_ := 4, nodes_ := [10, 30], adjacencies_ := [[2], []], node_ids_ := [1, 4],
    edges_ := [], edge_ids_ := [] }

/-- The edge records a call removes from `edges_`: the record stored for `id`
when the call is `erase_edge(id)`, none otherwise. -/
def Graph.erased_by (g : Graph α) : Op α → List Edge
  | .erase_edge id => (g.edge id).toList
  | _ => []

/-- The edge records that the `erase_edge` calls of a sequence remove, when
the sequence is performed from `g`. -/
def Graph.erased_records : List (Op α) → Graph α → List Edge
  | [], _ => []
  | op :: ops, g => g.erased_by op ++ Graph.erased_records ops (g.apply op).2

/-! ## Binary search on an ascending vector -/

theorem StrictAsc.le_of_le {v : List Int} (hs : StrictAsc v) {i j : Nat} {x y : Int}
    (hij : i ≤ j) (hi : v[i]? = some x) (hj : v[j]? = some y) : x ≤ y := by
  obtain ⟨hi1, rfl⟩ := List.getElem?_eq_some.mp hi
  obtain ⟨hj1, rfl⟩ := List.getElem?_eq_some.mp hj
  rcases Nat.eq_or_lt_of_le hij with h | h
  · subst h; exact le_refl _
  · exact le_of_lt (List.pairwise_iff_getElem.mp hs i j hi1 hj1 h)

theorem StrictAsc.lt_of_lt {v : List Int} (hs : StrictAsc v) {i j : Nat} {x y : Int}
    (hij : i < j) (hi : v[i]? = some x) (hj : v[j]? = some y) : x < y := by
  obtain ⟨hi1, rfl⟩ := List.getElem?_eq_some.mp hi
  obtain ⟨hj1, rfl⟩ := List.getElem?_eq_some.mp hj
  exact List.pairwise_iff_getElem.mp hs i j hi1 hj1 hij

theorem StrictAsc.index_unique {v : List Int} (hs : StrictAsc v) {i j : Nat} {x : Int}
    (hi : v[i]? = some x) (hj : v[j]? = some x) : i = j := by
  rcases Nat.lt_trichotomy i j with h | h | h
  · exact absurd (hs.lt_of_lt h hi hj) (lt_irrefl _)
  · exact h
  · exact absurd (hs.lt_of_lt h hj hi) (lt_irrefl _)

theorem StrictAsc.nodup {v : List Int} (hs : StrictAsc v) : v.Nodup :=
  List.Pairwise.imp (fun h => ne_of_lt h) hs

theorem StrictAsc.indexOf_eq {v : List Int} (hs : StrictAsc v) {i : Nat} {x : Int}
    (hi : v[i]? = some x) : v.indexOf x = i := by
  obtain ⟨hi1, rfl⟩ := List.getElem?_eq_some.mp hi
  exact List.indexOf_getElem hs.nodup i hi1

/-- What the loop of the binary search establishes on an ascending vector:
everything left of the result is below `val`, nothing from the result on is. -/
theorem lower_bound_loop_spec (v : List Int) (val : Int) (hs : StrictAsc v) :
    ∀ (fuel first len : Nat), len ≤ fuel → first + len ≤ v.length →
      (∀ i x, i < first → v[i]? = some x → x < val) →
      (∀ i x, first + len ≤ i → v[i]? = some x → val ≤ x) →
      first ≤ lower_bound_loop v val fuel first len ∧
      lower_bound_loop v val fuel first len ≤ first + len ∧
      (∀ i x, i < lower_bound_loop v val fuel first len → v[i]? = some x → x < val) ∧
      (∀ i x, lower_bound_loop v val fuel first len ≤ i → v[i]? = some x → val ≤ x) := by
  intro fuel
  induction fuel with
  | zero =>
    intro first len hf _ hlo hhi
    have hlen : len = 0 := Nat.le_zero.mp hf
    subst hlen
    simp only [lower_bound_loop]
    exact ⟨le_refl _, by omega, hlo, fun i x h => hhi i x (by omega)⟩
  | succ fuel ih =>
    intro first len hf hb hlo hhi
    by_cases hlen : len = 0
    · subst hlen
      simp only [lower_bound_loop, if_true]
      exact ⟨le_refl _, by omega, hlo, fun i x h => hhi i x (by omega)⟩
    · have hmid : first + len / 2 < v.length := by omega
      have hget : v[first + len / 2]? = some v[first + len / 2] :=
        List.getElem?_eq_getElem hmid
      by_cases hx : v[first + len / 2] < val
      · have hstep : lower_bound_loop v val (fuel + 1) first len =
            lower_bound_loop v val fuel (first + len / 2 + 1) (len - len / 2 - 1) := by
          simp [lower_bound_loop, hlen, hget, hx]
        rw [hstep]
        have hsum : first + len / 2 + 1 + (len - len / 2 - 1) = first + len := by omega
        have := ih (first + len / 2 + 1) (len - len / 2 - 1) (by omega) (by omega)
          (fun i x hi hix =>
            lt_of_le_of_lt (hs.le_of_le (Nat.lt_succ_iff.mp hi) hix hget) hx)
          (fun i x hi hix => hhi i x (by omega) hix)
        obtain ⟨h1, h2, h3, h4⟩ := this
        exact ⟨by omega, by omega, h3, h4⟩
      · have hstep : lower_bound_loop v val (fuel + 1) first len =
            lower_bound_loop v val fuel first (len / 2) := by
          simp [lower_bound_loop, hlen, hget, hx]
        rw [hstep]
        have := ih first (len / 2) (by omega) (by omega) hlo
          (fun i x hi hix => le_trans (not_lt.mp hx) (hs.le_of_le hi hget hix))
        obtain ⟨h1, h2, h3, h4⟩ := this
        exact ⟨h1, by omega, h3, h4⟩

/-- The result of `std::lower_bound` on an ascending vector. -/
theorem lower_bound_spec {v : List Int} (hs : StrictAsc v) (val : Int) :
    lower_bound v val ≤ v.length ∧
    (∀ i x, i < lower_bound v val → v[i]? = some x → x < val) ∧
    (∀ i x, lower_bound v val ≤ i → v[i]? = some x → val ≤ x) := by
  unfold lower_bound
  have := lower_bound_loop_spec v val hs v.length 0 v.length (le_refl _) (by omega)
    (fun i x hi => absurd hi (Nat.not_lt_zero i))
    (fun i x hi hix => by
      obtain ⟨h1, _⟩ := List.getElem?_eq_some.mp hix
      omega)
  obtain ⟨_, h2, h3, h4⟩ := this
  exact ⟨by omega, h3, h4⟩

/-- On an ascending vector the binary search finds every stored value, at the
position where it is stored. -/
theorem lower_bound_of_getElem {v : List Int} (hs : StrictAsc v) {k : Nat} {val : Int}
    (hk : v[k]? = some val) : lower_bound v val = k := by
  obtain ⟨h1, h2, h3⟩ := lower_bound_spec hs val
  have hkl : k < v.length := (List.getElem?_eq_some.mp hk).1
  have hle : lower_bound v val ≤ k := by
    by_contra hcon
    exact absurd (h2 k val (by omega) hk) (lt_irrefl _)
  have hget : v[lower_bound v val]? = some v[lower_bound v val] :=
    List.getElem?_eq_getElem (by omega)
  have ha : val ≤ v[lower_bound v val] := h3 _ _ (le_refl _) hget
  have hb : v[lower_bound v val] ≤ val := hs.le_of_le hle hget hk
  have heq : v[lower_bound v val] = val := le_antisymm hb ha
  rw [heq] at hget
  exact hs.index_unique hget hk

/-- A value above every stored one is searched to the end of the vector. -/
theorem lower_bound_of_gt {v : List Int} (hs : StrictAsc v) {val : Int}
    (hgt : ∀ x ∈ v, x < val) : lower_bound v val = v.length := by
  obtain ⟨h1, _, h3⟩ := lower_bound_spec hs val
  by_contra hne
  have hlt : lower_bound v val < v.length := by omega
  have hget : v[lower_bound v val]? = some v[lower_bound v val] :=
    List.getElem?_eq_getElem hlt
  have ha := h3 _ _ (le_refl _) hget
  have hb := hgt _ (List.getElem?_mem hget)
  omega

/-! ## Vector helpers -/

theorem vec_insert_length {β : Type} (v : List β) (a : β) :
    vec_insert v v.length a = v ++ [a] := by
  simp [vec_insert]

theorem vec_erase_eq_eraseIdx {β : Type} (v : List β) (i : Nat) :
    vec_erase v i = v.eraseIdx i := by
  simp [vec_erase, List.eraseIdx_eq_take_drop_succ]

theorem vec_erase_length {β : Type} (v : List β) {i : Nat} (hi : i < v.length) :
    (vec_erase v i).length + 1 = v.length := by
  rw [vec_erase_eq_eraseIdx, List.length_eraseIdx, if_pos hi]
  omega

theorem vec_erase_getElem? {β : Type} (v : List β) (i j : Nat) :
    (vec_erase v i)[j]? = if j < i then v[j]? else v[j + 1]? := by
  rw [vec_erase_eq_eraseIdx, List.getElem?_eraseIdx]

theorem vec_erase_subset {β : Type} (v : List β) (i : Nat) {x : β}
    (hx : x ∈ vec_erase v i) : x ∈ v := by
  rw [vec_erase_eq_eraseIdx] at hx
  exact (List.eraseIdx_sublist v i).subset hx

theorem StrictAsc.erase_at {v : List Int} (hs : StrictAsc v) (i : Nat) :
    StrictAsc (vec_erase v i) := by
  unfold StrictAsc
  rw [vec_erase_eq_eraseIdx]
  exact List.Pairwise.eraseIdx i hs

theorem StrictAsc.append_gt {v : List Int} (hs : StrictAsc v) {a : Int}
    (ha : ∀ x ∈ v, x < a) : StrictAsc (v ++ [a]) := by
  unfold StrictAsc
  rw [List.pairwise_append]
  refine ⟨hs, List.pairwise_singleton _ _, ?_⟩
  intro x hx b hb
  rw [List.mem_singleton] at hb
  subst hb
  exact ha x hx

/-- After erasing position `i` of an ascending vector the value that stood
there is gone. -/
theorem StrictAsc.not_mem_erase_at {v : List Int} (hs : StrictAsc v) {i : Nat} {x : Int}
    (hi : v[i]? = some x) : x ∉ vec_erase v i := by
  intro hx
  rw [vec_erase_eq_eraseIdx, List.mem_eraseIdx_iff_getElem?] at hx
  obtain ⟨j, hne, hj⟩ := hx
  exact hne (hs.index_unique hj hi)

/-- Where a value that stays is found after position `i` was erased. -/
theorem vec_erase_getElem?_of_ne {β : Type} {v : List β} {i j : Nat}
    {x : β} (hj : v[j]? = some x) (hne : j ≠ i) :
    (vec_erase v i)[if j < i then j else j - 1]? = some x := by
  rw [vec_erase_getElem?]
  by_cases h : j < i
  · simp [h, hj]
  · have h1 : ¬ (j - 1 < i) := by omega
    have h2 : j - 1 + 1 = j := by omega
    simp [h, h1, h2, hj]

/-! ## The member functions on a state that satisfies the invariant -/

theorem getElem?_some_of_len {β γ : Type} {v : List β} {w : List γ} (hl : w.length = v.length)
    {k : Nat} {x : β} (hk : v[k]? = some x) : ∃ y, w[k]? = some y := by
  have hk1 : k < v.length := (List.getElem?_eq_some.mp hk).1
  exact ⟨w[k], List.getElem?_eq_getElem (by omega)⟩

/-- The lookup shared by `node`, `num_adjacencies`, `erase_node` and
`insert_edge` fails both of its tests exactly when the id is not stored. -/
theorem lookup_absent {v : List Int} {id : Int} (hm : id ∉ v) :
    lower_bound v id = v.length ∨ v[lower_bound v id]? ≠ some id := by
  by_cases h : v[lower_bound v id]? = some id
  · exact absurd (List.getElem?_mem h) hm
  · exact Or.inr h

theorem lookup_present {v : List Int} (hs : StrictAsc v) {id : Int} {k : Nat}
    (hk : v[k]? = some id) :
    lower_bound v id = k ∧ k ≠ v.length ∧ v[k]? = some id := by
  have hk1 : k < v.length := (List.getElem?_eq_some.mp hk).1
  exact ⟨lower_bound_of_getElem hs hk, by omega, hk⟩

theorem node_of_absent (g : Graph α) {id : Int} (hm : id ∉ g.node_ids_) :
    g.node id = .assert_failed := by
  unfold Graph.node
  rcases lookup_absent hm with h | h
  · simp [h]
  · simp [h]

theorem num_adjacencies_of_absent (g : Graph α) {id : Int} (hm : id ∉ g.node_ids_) :
    g.num_adjacencies id = .assert_failed := by
  unfold Graph.num_adjacencies
  rcases lookup_absent hm with h | h
  · simp [h]
  · simp [h]

theorem node_of_present {g : Graph α} (hs : StrictAsc g.node_ids_) {id : Int} {k : Nat}
    {p : α} (hk : g.node_ids_[k]? = some id) (hp : g.nodes_[k]? = some p) :
    g.node id = .ok p := by
  obtain ⟨h1, h2, h3⟩ := lookup_present hs hk
  simp [Graph.node, h1, h2, h3, hp]

theorem num_adjacencies_of_present {g : Graph α} (hs : StrictAsc g.node_ids_) {id : Int}
    {k : Nat} {adj : List Int} (hk : g.node_ids_[k]? = some id)
    (hp : g.adjacencies_[k]? = some adj) :
    g.num_adjacencies id = .ok adj.length := by
  obtain ⟨h1, h2, h3⟩ := lookup_present hs hk
  simp [Graph.num_adjacencies, h1, h2, h3, hp]

theorem insert_node_overflow (g : Graph α) (p : α) (hc : INT_MAX ≤ g.current_id_) :
    g.insert_node p = (.undefined, g) := by
  simp [Graph.insert_node, hc]

/-- On a state that satisfies the invariant `insert_node` appends. -/
theorem insert_node_of_inv {g : Graph α} (h : g.Inv) (p : α)
    (hc : g.current_id_ < INT_MAX) :
    g.insert_node p =
      (.ok (g.current_id_ + 1),
        { g with
          current_id_ := g.current_id_ + 1
          node_ids_ := g.node_ids_ ++ [g.current_id_ + 1]
          nodes_ := g.nodes_ ++ [p]
          adjacencies_ := g.adjacencies_ ++ [[]] }) := by
  have hlb : lower_bound g.node_ids_ (g.current_id_ + 1) = g.node_ids_.length :=
    lower_bound_of_gt h.node_ids_asc (fun x hx => by
      have := (h.node_ids_bound x hx).2
      omega)
  have h1 : vec_insert g.nodes_ g.node_ids_.length p = g.nodes_ ++ [p] := by
    rw [← h.nodes_len, vec_insert_length]
  have h2 : vec_insert g.adjacencies_ g.node_ids_.length [] = g.adjacencies_ ++ [[]] := by
    rw [← h.adjacencies_len, vec_insert_length]
  simp [Graph.insert_node, not_le.mpr hc, hlb, insert_position_ok, h.nodes_len,
    h.adjacencies_len, vec_insert_length, h1, h2]

theorem erase_node_of_absent (g : Graph α) {id : Int} (hm : id ∉ g.node_ids_) :
    g.erase_node id = (.assert_failed, g) := by
  unfold Graph.erase_node
  rcases lookup_absent hm with h | h
  · simp [h]
  · simp [h]

theorem erase_node_of_present {g : Graph α} (h : g.Inv) {id : Int} {k : Nat}
    (hk : g.node_ids_[k]? = some id) :
    g.erase_node id =
      (.ok (),
        { g with
          node_ids_ := vec_erase g.node_ids_ k
          nodes_ := vec_erase g.nodes_ k
          adjacencies_ := vec_erase g.adjacencies_ k }) := by
  obtain ⟨h1, h2, h3⟩ := lookup_present h.node_ids_asc hk
  have hk1 : k < g.node_ids_.length := (List.getElem?_eq_some.mp hk).1
  have h4 : ¬ (g.nodes_.length ≤ k) := by rw [h.nodes_len]; omega
  have h5 : ¬ (g.adjacencies_.length ≤ k) := by rw [h.adjacencies_len]; omega
  simp only [Graph.erase_node, h1, h2, h3, h4, h5]
  simp

theorem erase_edge_of_absent (g : Graph α) {id : Int} (hm : id ∉ g.edge_ids_) :
    g.erase_edge id = (.assert_failed, g) := by
  unfold Graph.erase_edge
  rcases lookup_absent hm with h | h
  · simp [h]
  · simp [h]

theorem erase_edge_of_present {g : Graph α} (h : g.Inv) {id : Int} {k : Nat}
    (hk : g.edge_ids_[k]? = some id) :
    g.erase_edge id =
      (.ok (),
        { g with
          edge_ids_ := vec_erase g.edge_ids_ k
          edges_ := vec_erase g.edges_ k }) := by
  obtain ⟨h1, h2, h3⟩ := lookup_present h.edge_ids_asc hk
  have hk1 : k < g.edge_ids_.length := (List.getElem?_eq_some.mp hk).1
  have h4 : ¬ (g.edges_.length ≤ k) := by rw [h.edges_len]; omega
  simp only [Graph.erase_edge, h1, h2, h3, h4]
  simp

theorem insert_edge_overflow (g : Graph α) (a b : Int) (hc : INT_MAX ≤ g.current_id_) :
    g.insert_edge a b = (.undefined, g) := by
  simp [Graph.insert_edge, hc]

/-- The first block of `insert_edge` on a state that satisfies the invariant:
the new id and the edge record go to the back. -/
theorem insert_edge_first_block {g : Graph α} (h : g.Inv) :
    lower_bound g.edge_ids_ (g.current_id_ + 1) = g.edge_ids_.length ∧
    vec_insert g.edge_ids_ g.edge_ids_.length (g.current_id_ + 1) =
      g.edge_ids_ ++ [g.current_id_ + 1] ∧
    ∀ e : Edge, vec_insert g.edges_ g.edge_ids_.length e = g.edges_ ++ [e] := by
  refine ⟨lower_bound_of_gt h.edge_ids_asc (fun x hx => ?_), vec_insert_length _ _, ?_⟩
  · have := (h.edge_ids_bound x hx).2
    omega
  · intro e
    rw [← h.edges_len, vec_insert_length]

theorem insert_edge_of_absent {g : Graph α} (h : g.Inv) (a b : Int)
    (hc : g.current_id_ < INT_MAX) (hm : a ∉ g.node_ids_) :
    g.insert_edge a b = (.assert_failed, g.with_edge a b) := by
  obtain ⟨e1, e2, e3⟩ := insert_edge_first_block h
  rcases lookup_absent hm with hl | hl
  · simp [Graph.insert_edge, not_le.mpr hc, e1, e2, e3, insert_position_ok, h.edges_len, hl,
      Graph.with_edge]
  · simp [Graph.insert_edge, not_le.mpr hc, e1, e2, e3, insert_position_ok, h.edges_len, hl,
      Graph.with_edge]

theorem insert_edge_of_duplicate {g : Graph α} (h : g.Inv) (a b : Int)
    (hc : g.current_id_ < INT_MAX) {k : Nat} {adj : List Int}
    (hk : g.node_ids_[k]? = some a) (hadj : g.adjacencies_[k]? = some adj) (hb : b ∈ adj) :
    g.insert_edge a b = (.assert_failed, g.with_edge a b) := by
  obtain ⟨e1, e2, e3⟩ := insert_edge_first_block h
  obtain ⟨h1, h2, h3⟩ := lookup_present h.node_ids_asc hk
  simp [Graph.insert_edge, not_le.mpr hc, e1, e2, e3, insert_position_ok, h.edges_len, h1, h2,
    h3, hadj, hb, Graph.with_edge]

theorem insert_edge_of_fresh {g : Graph α} (h : g.Inv) (a b : Int)
    (hc : g.current_id_ < INT_MAX) {k : Nat} {adj : List Int}
    (hk : g.node_ids_[k]? = some a) (hadj : g.adjacencies_[k]? = some adj) (hb : b ∉ adj) :
    g.insert_edge a b =
      (.ok (g.current_id_ + 1),
        { g.with_edge a b with adjacencies_ := g.adjacencies_.set k (adj ++ [b]) }) := by
  obtain ⟨e1, e2, e3⟩ := insert_edge_first_block h
  obtain ⟨h1, h2, h3⟩ := lookup_present h.node_ids_asc hk
  simp [Graph.insert_edge, not_le.mpr hc, e1, e2, e3, insert_position_ok, h.edges_len, h1, h2,
    h3, hadj, hb, Graph.with_edge]

/-! ## Returning calls, case by case -/

/-- What a returning call of a modifier did, on a state that satisfies the
invariant: one of four shapes, each with the state it leaves. -/
theorem apply_ok_cases {g : Graph α} (h : g.Inv) {op : Op α} {r : Option Int} {g1 : Graph α}
    (hop : g.apply op = (.ok r, g1)) :
    (∃ p, op = .insert_node p ∧ g.current_id_ < INT_MAX ∧ r = some (g.current_id_ + 1) ∧
      g1 = { g with
              current_id_ := g.current_id_ + 1
              node_ids_ := g.node_ids_ ++ [g.current_id_ + 1]
              nodes_ := g.nodes_ ++ [p]
              adjacencies_ := g.adjacencies_ ++ [[]] }) ∨
    (∃ id k, op = .erase_node id ∧ g.node_ids_[k]? = some id ∧ r = none ∧
      g1 = { g with
              node_ids_ := vec_erase g.node_ids_ k
              nodes_ := vec_erase g.nodes_ k
              adjacencies_ := vec_erase g.adjacencies_ k }) ∨
    (∃ a b k adj, op = .insert_edge a b ∧ g.current_id_ < INT_MAX ∧
      g.node_ids_[k]? = some a ∧ g.adjacencies_[k]? = some adj ∧ b ∉ adj ∧
      r = some (g.current_id_ + 1) ∧
      g1 = { g.with_edge a b with adjacencies_ := g.adjacencies_.set k (adj ++ [b]) }) ∨
    (∃ id k, op = .erase_edge id ∧ g.edge_ids_[k]? = some id ∧ r = none ∧
      g1 = { g with
              edge_ids_ := vec_erase g.edge_ids_ k
              edges_ := vec_erase g.edges_ k }) := by
  cases op with
  | insert_node p =>
    left
    by_cases hc : g.current_id_ < INT_MAX
    · rw [Graph.apply, insert_node_of_inv h p hc] at hop
      simp only [Outcome.issued, Prod.mk.injEq, Outcome.ok.injEq] at hop
      exact ⟨p, rfl, hc, hop.1.symm, hop.2.symm⟩
    · rw [Graph.apply, insert_node_overflow g p (not_lt.mp hc)] at hop
      simp [Outcome.issued] at hop
  | erase_node id =>
    right; left
    by_cases hm : id ∈ g.node_ids_
    · obtain ⟨k, hk⟩ := List.mem_iff_getElem?.mp hm
      rw [Graph.apply, erase_node_of_present h hk] at hop
      simp only [Outcome.no_id, Prod.mk.injEq, Outcome.ok.injEq] at hop
      exact ⟨id, k, rfl, hk, hop.1.symm, hop.2.symm⟩
    · rw [Graph.apply, erase_node_of_absent g hm] at hop
      simp [Outcome.no_id] at hop
  | insert_edge a b =>
    right; right; left
    by_cases hc : g.current_id_ < INT_MAX
    · by_cases hm : a ∈ g.node_ids_
      · obtain ⟨k, hk⟩ := List.mem_iff_getElem?.mp hm
        obtain ⟨adj, hadj⟩ := getElem?_some_of_len h.adjacencies_len hk
        by_cases hb : b ∈ adj
        · rw [Graph.apply, insert_edge_of_duplicate h a b hc hk hadj hb] at hop
          simp [Outcome.issued] at hop
        · rw [Graph.apply, insert_edge_of_fresh h a b hc hk hadj hb] at hop
          simp only [Outcome.issued, Prod.mk.injEq, Outcome.ok.injEq] at hop
          exact ⟨a, b, k, adj, rfl, hc, hk, hadj, hb, hop.1.symm, hop.2.symm⟩
      · rw [Graph.apply, insert_edge_of_absent h a b hc hm] at hop
        simp [Outcome.issued] at hop
    · rw [Graph.apply, insert_edge_overflow g a b (not_lt.mp hc)] at hop
      simp [Outcome.issued] at hop
  | erase_edge id =>
    right; right; right
    by_cases hm : id ∈ g.edge_ids_
    · obtain ⟨k, hk⟩ := List.mem_iff_getElem?.mp hm
      rw [Graph.apply, erase_edge_of_present h hk] at hop
      simp only [Outcome.no_id, Prod.mk.injEq, Outcome.ok.injEq] at hop
      exact ⟨id, k, rfl, hk, hop.1.symm, hop.2.symm⟩
    · rw [Graph.apply, erase_edge_of_absent g hm] at hop
      simp [Outcome.no_id] at hop

/-! ## The invariant is kept -/

theorem Graph.Inv.init : (Graph.empty : Graph α).Inv where
  node_ids_asc := List.Pairwise.nil
  nodes_len := rfl
  adjacencies_len := rfl
  edge_ids_asc := List.Pairwise.nil
  edges_len := rfl
  node_ids_bound := fun _ hid => absurd hid (List.not_mem_nil _)
  edge_ids_bound := fun _ hid => absurd hid (List.not_mem_nil _)
  counter_nonneg := le_refl _

theorem Graph.Inv.step {g : Graph α} (h : g.Inv) {op : Op α} {r : Option Int} {g1 : Graph α}
    (hop : g.apply op = (.ok r, g1)) : g1.Inv := by
  have hn := h.counter_nonneg
  rcases apply_ok_cases h hop with ⟨p, -, -, -, rfl⟩ | ⟨id, k, -, hk, -, rfl⟩ |
    ⟨a, b, k, adj, -, -, hk, hadj, -, -, rfl⟩ | ⟨id, k, -, hk, -, rfl⟩
  · refine ⟨h.node_ids_asc.append_gt (fun x hx => ?_), ?_, ?_, h.edge_ids_asc, h.edges_len,
      ?_, ?_, ?_⟩
    · have := (h.node_ids_bound x hx).2
      omega
    · simp [h.nodes_len]
    · simp [h.adjacencies_len]
    · intro x hx
      rcases List.mem_append.mp hx with hx | hx
      · have := h.node_ids_bound x hx
        exact ⟨this.1, by show x ≤ g.current_id_ + 1; omega⟩
      · rw [List.mem_singleton] at hx
        subst hx
        exact ⟨by omega, le_refl _⟩
    · intro x hx
      have := h.edge_ids_bound x hx
      exact ⟨this.1, by show x ≤ g.current_id_ + 1; omega⟩
    · show 0 ≤ g.current_id_ + 1
      omega
  · have hk1 : k < g.node_ids_.length := (List.getElem?_eq_some.mp hk).1
    refine ⟨h.node_ids_asc.erase_at k, ?_, ?_, h.edge_ids_asc, h.edges_len, ?_,
      h.edge_ids_bound, hn⟩
    · have e1 := vec_erase_length g.nodes_ (i := k) (by rw [h.nodes_len]; exact hk1)
      have e2 := vec_erase_length g.node_ids_ hk1
      have e3 := h.nodes_len
      show (vec_erase g.nodes_ k).length = (vec_erase g.node_ids_ k).length
      omega
    · have e1 := vec_erase_length g.adjacencies_ (i := k) (by rw [h.adjacencies_len]; exact hk1)
      have e2 := vec_erase_length g.node_ids_ hk1
      have e3 := h.adjacencies_len
      show (vec_erase g.adjacencies_ k).length = (vec_erase g.node_ids_ k).length
      omega
    · intro x hx
      exact h.node_ids_bound x (vec_erase_subset _ _ hx)
  · refine ⟨h.node_ids_asc, h.nodes_len, ?_, h.edge_ids_asc.append_gt (fun x hx => ?_), ?_,
      ?_, ?_, ?_⟩
    · show (g.adjacencies_.set k (adj ++ [b])).length = g.node_ids_.length
      rw [List.length_set]
      exact h.adjacencies_len
    · have := (h.edge_ids_bound x hx).2
      omega
    · show (g.edges_ ++ [_]).length = (g.edge_ids_ ++ [_]).length
      simp [h.edges_len]
    · intro x hx
      have := h.node_ids_bound x hx
      exact ⟨this.1, by show x ≤ g.current_id_ + 1; omega⟩
    · intro x hx
      rcases List.mem_append.mp hx with hx | hx
      · have := h.edge_ids_bound x hx
        exact ⟨this.1, by show x ≤ g.current_id_ + 1; omega⟩
      · rw [List.mem_singleton] at hx
        subst hx
        exact ⟨by show 1 ≤ g.current_id_ + 1; omega, le_refl _⟩
    · show 0 ≤ g.current_id_ + 1
      omega
  · have hk1 : k < g.edge_ids_.length := (List.getElem?_eq_some.mp hk).1
    refine ⟨h.node_ids_asc, h.nodes_len, h.adjacencies_len, h.edge_ids_asc.erase_at k, ?_,
      h.node_ids_bound, ?_, hn⟩
    · have e1 := vec_erase_length g.edges_ (i := k) (by rw [h.edges_len]; exact hk1)
      have e2 := vec_erase_length g.edge_ids_ hk1
      have e3 := h.edges_len
      show (vec_erase g.edges_ k).length = (vec_erase g.edge_ids_ k).length
      omega
    · intro x hx
      exact h.edge_ids_bound x (vec_erase_subset _ _ hx)

/-- Every reachable state satisfies the representation invariant. -/
theorem Reachable.inv {g : Graph α} (hr : Reachable g) : g.Inv := by
  induction hr with
  | init => exact Graph.Inv.init
  | step g op r g1 _ hop ih => exact ih.step hop

/-- The final state of a run from a reachable state is reachable. -/
theorem Reachable.run {ops : List (Op α)} :
    ∀ {g : Graph α} {ids : List Int} {g1 : Graph α},
      Reachable g → g.run ops = some (ids, g1) → Reachable g1 := by
  induction ops with
  | nil =>
    intro g ids g1 hr hrun
    simp only [Graph.run, Option.some.injEq, Prod.mk.injEq] at hrun
    exact hrun.2 ▸ hr
  | cons op ops ih =>
    intro g ids g1 hr hrun
    rw [Graph.run] at hrun
    split at hrun
    · rename_i r g2 hop
      split at hrun
      · rename_i ids2 g3 hrest
        simp only [Option.some.injEq, Prod.mk.injEq] at hrun
        exact hrun.2 ▸ ih (Reachable.step g op r g2 hr hop) hrest
      · exact absurd hrun (by simp)
    · exact absurd hrun (by simp)

/-- The final state of a run from the empty graph is reachable. -/
theorem reachable_of_run (ops : List (Op α)) (ids : List Int) {g : Graph α}
    (hrun : (Graph.empty : Graph α).run ops = some (ids, g)) : Reachable g :=
  Reachable.run Reachable.init hrun

/-! ## Lookup right after an insertion -/

theorem getElem?_append_length {β : Type} (v : List β) (a : β) :
    (v ++ [a])[v.length]? = some a := by
  simp

/-- C1: in a reachable state, when `insert_node(p)` returns `id`, then in the
resulting state `node(id)` returns `p` and `num_adjacencies(id)` returns 0;
and the call does return as long as the counter is below `INT_MAX`. -/
theorem insert_node_then_lookup (g : Graph α) (hr : Reachable g) (p : α) :
    (g.current_id_ < INT_MAX → ∃ id g1, g.insert_node p = (.ok id, g1)) ∧
    ∀ id g1, g.insert_node p = (.ok id, g1) →
      g1.node id = .ok p ∧ g1.num_adjacencies id = .ok 0 := by
  have h := hr.inv
  refine ⟨fun hc => ⟨_, _, insert_node_of_inv h p hc⟩, ?_⟩
  intro id g1 hins
  have hop : g.apply (.insert_node p) = (.ok (some id), g1) := by
    simp [Graph.apply, hins, Outcome.issued]
  have h1 := h.step hop
  by_cases hc : g.current_id_ < INT_MAX
  · rw [insert_node_of_inv h p hc] at hins
    simp only [Prod.mk.injEq, Outcome.ok.injEq] at hins
    obtain ⟨hid, hg⟩ := hins
    subst hg
    subst hid
    have hk : (g.node_ids_ ++ [g.current_id_ + 1])[g.node_ids_.length]? =
        some (g.current_id_ + 1) := getElem?_append_length _ _
    have hp : (g.nodes_ ++ [p])[g.node_ids_.length]? = some p := by
      rw [← h.nodes_len]
      exact getElem?_append_length _ _
    have ha : (g.adjacencies_ ++ [[]])[g.node_ids_.length]? = some ([] : List Int) := by
      rw [← h.adjacencies_len]
      exact getElem?_append_length _ _
    exact ⟨node_of_present h1.node_ids_asc hk hp,
      num_adjacencies_of_present h1.node_ids_asc hk ha⟩
  · rw [insert_node_overflow g p (not_lt.mp hc)] at hins
    simp at hins

theorem insert_node_then_lookup_witness :
    Reachable two_nodes ∧ two_nodes.insert_node 30 = (.ok 3, three_nodes) ∧
    (three_nodes.node 3 = .ok 30 ∧ three_nodes.num_adjacencies 3 = .ok 0) :=
  have hr : Reachable two_nodes :=
    reachable_of_run [.insert_node 10, .insert_node 20] [1, 2] (by decide)
  ⟨hr, by decide, (insert_node_then_lookup two_nodes hr 30).2 3 three_nodes (by decide)⟩

/-! ## Lookup by id -/

/-- C2: on a state whose `node_ids_` ascends strictly and whose three node
vectors have one length, `node(id)` and `num_adjacencies(id)` return exactly
when `id` is stored; then they return the payload and the length of the
adjacency list at the position of `id`; for an absent `id` both fail their
assertion. -/
theorem lookup_iff_present (g : Graph α) (id : Int) (hs : StrictAsc g.node_ids_)
    (hn : g.nodes_.length = g.node_ids_.length)
    (ha : g.adjacencies_.length = g.node_ids_.length) :
    ((∃ p, g.node id = .ok p) ↔ id ∈ g.node_ids_) ∧
    ((∃ n, g.num_adjacencies id = .ok n) ↔ id ∈ g.node_ids_) ∧
    (id ∈ g.node_ids_ → ∃ p adj,
      g.nodes_[g.node_ids_.indexOf id]? = some p ∧
      g.adjacencies_[g.node_ids_.indexOf id]? = some adj ∧
      g.node id = .ok p ∧ g.num_adjacencies id = .ok adj.length) ∧
    (id ∉ g.node_ids_ →
      g.node id = .assert_failed ∧ g.num_adjacencies id = .assert_failed) := by
  have hpres : id ∈ g.node_ids_ → ∃ p adj,
      g.nodes_[g.node_ids_.indexOf id]? = some p ∧
      g.adjacencies_[g.node_ids_.indexOf id]? = some adj ∧
      g.node id = .ok p ∧ g.num_adjacencies id = .ok adj.length := by
    intro hm
    obtain ⟨k, hk⟩ := List.mem_iff_getElem?.mp hm
    obtain ⟨p, hp⟩ := getElem?_some_of_len hn hk
    obtain ⟨adj, hadj⟩ := getElem?_some_of_len ha hk
    rw [hs.indexOf_eq hk]
    exact ⟨p, adj, hp, hadj, node_of_present hs hk hp, num_adjacencies_of_present hs hk hadj⟩
  refine ⟨⟨?_, ?_⟩, ⟨?_, ?_⟩, hpres, fun hm => ⟨node_of_absent g hm, num_adjacencies_of_absent g hm⟩⟩
  · rintro ⟨p, hp⟩
    by_contra hm
    rw [node_of_absent g hm] at hp
    exact absurd hp (by simp)
  · intro hm
    obtain ⟨p, _, _, _, h1, _⟩ := hpres hm
    exact ⟨p, h1⟩
  · rintro ⟨n, hn1⟩
    by_contra hm
    rw [num_adjacencies_of_absent g hm] at hn1
    exact absurd hn1 (by simp)
  · intro hm
    obtain ⟨_, adj, _, _, _, h2⟩ := hpres hm
    exact ⟨adj.length, h2⟩

theorem lookup_iff_present_witness :
    StrictAsc gap_nodes.node_ids_ ∧
    gap_nodes.nodes_.length = gap_nodes.node_ids_.length ∧
    gap_nodes.adjacencies_.length = gap_nodes.node_ids_.length ∧
    (((∃ p, gap_nodes.node 3 = .ok p) ↔ 3 ∈ gap_nodes.node_ids_) ∧
    ((∃ n, gap_nodes.num_adjacencies 3 = .ok n) ↔ 3 ∈ gap_nodes.node_ids_) ∧
    (3 ∈ gap_nodes.node_ids_ → ∃ p adj,
      gap_nodes.nodes_[gap_nodes.node_ids_.indexOf 3]? = some p ∧
      gap_nodes.adjacencies_[gap_nodes.node_ids_.indexOf 3]? = some adj ∧
      gap_nodes.node 3 = .ok p ∧ gap_nodes.num_adjacencies 3 = .ok adj.length) ∧
    (3 ∉ gap_nodes.node_ids_ →
      gap_nodes.node 3 = .assert_failed ∧ gap_nodes.num_adjacencies 3 = .assert_failed)) :=
  ⟨by decide, by decide, by decide, lookup_iff_present gap_nodes 3 (by decide) rfl rfl⟩

/-! ## The representation invariant -/

/-- C3: in every state reachable from the empty graph by returning calls of
`insert_node`, `erase_node`, `insert_edge` and `erase_edge`, `node_ids_`
ascends strictly, `nodes_` and `adjacencies_` are as long as `node_ids_`,
`edge_ids_` ascends strictly and `edges_` is as long as `edge_ids_`. -/
theorem reachable_representation (g : Graph α) (hr : Reachable g) :
    StrictAsc g.node_ids_ ∧ g.node_ids_.length = g.nodes_.length ∧
    g.nodes_.length = g.adjacencies_.length ∧ StrictAsc g.edge_ids_ ∧
    g.edge_ids_.length = g.edges_.length := by
  have h := hr.inv
  exact ⟨h.node_ids_asc, h.nodes_len.symm, by rw [h.nodes_len, h.adjacencies_len],
    h.edge_ids_asc, h.edges_len.symm⟩

theorem reachable_representation_witness :
    Reachable gap_nodes ∧
    (StrictAsc gap_nodes.node_ids_ ∧ gap_nodes.node_ids_.length = gap_nodes.nodes_.length ∧
    gap_nodes.nodes_.length = gap_nodes.adjacencies_.length ∧ StrictAsc gap_nodes.edge_ids_ ∧
    gap_nodes.edge_ids_.length = gap_nodes.edges_.length) :=
  have hr : Reachable gap_nodes :=
    reachable_of_run
      [.insert_node 10, .insert_node 20, .insert_node 30, .insert_edge 1 3, .erase_node 2]
      [1, 2, 3, 4] (by decide)
  ⟨hr, reachable_representation gap_nodes hr⟩

/-! ## The shared id counter -/

/-- A returning call either issues no id and keeps the counter, or issues the
successor of the counter and stores it as the new counter. -/
theorem apply_ok_counter {g : Graph α} (h : g.Inv) {op : Op α} {r : Option Int}
    {g1 : Graph α} (hop : g.apply op = (.ok r, g1)) :
    (r = none ∧ g1.current_id_ = g.current_id_) ∨
    (r = some (g.current_id_ + 1) ∧ g1.current_id_ = g.current_id_ + 1) := by
  rcases apply_ok_cases h hop with ⟨p, -, -, hr, rfl⟩ | ⟨id, k, -, -, hr, rfl⟩ |
    ⟨a, b, k, adj, -, -, -, -, -, hr, rfl⟩ | ⟨id, k, -, -, hr, rfl⟩
  · exact Or.inr ⟨hr, rfl⟩
  · exact Or.inl ⟨hr, rfl⟩
  · exact Or.inr ⟨hr, rfl⟩
  · exact Or.inl ⟨hr, rfl⟩

/-- The ids a run issues ascend strictly, lie above the counter of the state
the run starts in, and begin with the successor of that counter. -/
theorem run_issued_ids {ops : List (Op α)} :
    ∀ {g : Graph α} {ids : List Int} {g1 : Graph α},
      g.Inv → g.run ops = some (ids, g1) →
      (∀ x ∈ ids, g.current_id_ < x) ∧ ids.Pairwise (· < ·) ∧
      (∀ x, ids.head? = some x → x = g.current_id_ + 1) := by
  induction ops with
  | nil =>
    intro g ids g1 _ hrun
    simp only [Graph.run, Option.some.injEq, Prod.mk.injEq] at hrun
    rw [← hrun.1]
    simp
  | cons op ops ih =>
    intro g ids g1 h hrun
    rw [Graph.run] at hrun
    split at hrun
    · rename_i r g2 hop
      split at hrun
      · rename_i ids2 g3 hrest
        simp only [Option.some.injEq, Prod.mk.injEq] at hrun
        obtain ⟨i1, i2, i3⟩ := ih (h.step hop) hrest
        rw [← hrun.1]
        rcases apply_ok_counter h hop with ⟨hr, hcnt⟩ | ⟨hr, hcnt⟩
        · subst hr
          rw [hcnt] at i1 i3
          exact ⟨by simpa using i1, by simpa using i2, by simpa using i3⟩
        · subst hr
          rw [hcnt] at i1 i3
          refine ⟨?_, ?_, ?_⟩
          · intro x hx
            simp only [Option.toList, List.singleton_append, List.mem_cons] at hx
            rcases hx with hx | hx
            · omega
            · have := i1 x hx
              omega
          · simp only [Option.toList, List.singleton_append, List.pairwise_cons]
            exact ⟨fun x hx => by have := i1 x hx; omega, i2⟩
          · intro x hx
            simp only [Option.toList, List.singleton_append, List.head?_cons,
              Option.some.injEq] at hx
            exact hx.symm
      · exact absurd hrun (by simp)
    · exact absurd hrun (by simp)

/-- C4: for every sequence of calls applied to the empty graph in which every
call returns, erasures included, the ids issued by `insert_node` and
`insert_edge` ascend strictly in the order of issue (so they are pairwise
distinct and none is issued twice), and the first one is 1. -/
theorem issued_ids_strictly_increase (ops : List (Op α)) (ids : List Int) (g : Graph α)
    (hrun : (Graph.empty : Graph α).run ops = some (ids, g)) :
    ids.Pairwise (· < ·) ∧ ids.Nodup ∧ (∀ x, ids.head? = some x → x = 1) := by
  obtain ⟨_, h2, h3⟩ := run_issued_ids Graph.Inv.init hrun
  refine ⟨h2, List.Pairwise.imp (fun hlt => ne_of_lt hlt) h2, ?_⟩
  intro x hx
  have := h3 x hx
  simpa [Graph.empty] using this

theorem issued_ids_strictly_increase_witness :
    (Graph.empty : Graph Nat).run
        [.insert_node 10, .insert_edge 1 7, .erase_node 1, .erase_edge 2, .insert_node 20] =
      some ([1, 2, 3], ⟨3, [20], [[]], [3], [], []⟩) ∧
    (([1, 2, 3] : List Int).Pairwise (· < ·) ∧ ([1, 2, 3] : List Int).Nodup ∧
      (∀ x, ([1, 2, 3] : List Int).head? = some x → x = 1)) :=
  ⟨by decide,
    issued_ids_strictly_increase
      [.insert_node 10, .insert_edge 1 7, .erase_node 1, .erase_edge 2, .insert_node 20]
      [1, 2, 3] ⟨3, [20], [[]], [3], [], []⟩ (by decide)⟩

/-! ## The stored record of an id -/

theorem payload_of_getElem {g : Graph α} (hs : StrictAsc g.node_ids_) {id : Int} {k : Nat}
    (hk : g.node_ids_[k]? = some id) : g.payload id = g.nodes_[k]? := by
  simp [Graph.payload, List.getElem?_mem hk, hs.indexOf_eq hk]

theorem adjacency_of_getElem {g : Graph α} (hs : StrictAsc g.node_ids_) {id : Int} {k : Nat}
    (hk : g.node_ids_[k]? = some id) : g.adjacency id = g.adjacencies_[k]? := by
  simp [Graph.adjacency, List.getElem?_mem hk, hs.indexOf_eq hk]

theorem edge_of_getElem {g : Graph α} (hs : StrictAsc g.edge_ids_) {id : Int} {k : Nat}
    (hk : g.edge_ids_[k]? = some id) : g.edge id = g.edges_[k]? := by
  simp [Graph.edge, List.getElem?_mem hk, hs.indexOf_eq hk]

/-- The position form of `has_adjacency` on an ascending `node_ids_`. -/
theorem has_adjacency_iff {g : Graph α} (hs : StrictAsc g.node_ids_) (a b : Int) :
    g.has_adjacency a b ↔
      ∃ (k : Nat) (adj : List Int),
        g.node_ids_[k]? = some a ∧ g.adjacencies_[k]? = some adj ∧ b ∈ adj := by
  constructor
  · rintro ⟨adj, hadj, hb⟩
    by_cases hm : a ∈ g.node_ids_
    · obtain ⟨k, hk⟩ := List.mem_iff_getElem?.mp hm
      rw [adjacency_of_getElem hs hk] at hadj
      exact ⟨k, adj, hk, hadj, hb⟩
    · simp [Graph.adjacency, hm] at hadj
  · rintro ⟨k, adj, hk, hadj, hb⟩
    exact ⟨adj, by rw [adjacency_of_getElem hs hk]; exact hadj, hb⟩

/-! ## Inserting an edge -/

/-- What a returning `insert_edge` did, on a state that satisfies the
invariant. -/
theorem insert_edge_ok_inv {g : Graph α} (h : g.Inv) {a b e : Int} {g1 : Graph α}
    (hins : g.insert_edge a b = (.ok e, g1)) :
    ∃ k adj, g.current_id_ < INT_MAX ∧ g.node_ids_[k]? = some a ∧
      g.adjacencies_[k]? = some adj ∧ b ∉ adj ∧ e = g.current_id_ + 1 ∧
      g1 = { g.with_edge a b with adjacencies_ := g.adjacencies_.set k (adj ++ [b]) } := by
  have hop : g.apply (.insert_edge a b) = (.ok (some e), g1) := by
    simp [Graph.apply, hins, Outcome.issued]
  rcases apply_ok_cases h hop with ⟨p, hx, -⟩ | ⟨id, k, hx, -⟩ |
    ⟨a1, b1, k, adj, hx, hc, hk, hadj, hb, hr, hg⟩ | ⟨id, k, hx, -⟩
  · exact absurd hx (by simp)
  · exact absurd hx (by simp)
  · simp only [Op.insert_edge.injEq] at hx
    obtain ⟨rfl, rfl⟩ := hx
    simp only [Option.some.injEq] at hr
    exact ⟨k, adj, hc, hk, hadj, hb, hr, hg⟩
  · exact absurd hx (by simp)

/-- C5: in a reachable state, when `insert_edge(from, to)` returns, then
`from` is a stored node, `num_adjacencies(from)` is one more than before and
the adjacency list of `from` holds `to` exactly once; and the call does return
when `from` is stored, `to` is not yet adjacent to it and the counter is below
`INT_MAX`. -/
theorem insert_edge_adds_one_adjacency (g : Graph α) (hr : Reachable g) (a b : Int) :
    (a ∈ g.node_ids_ → ¬ g.has_adjacency a b → g.current_id_ < INT_MAX →
      ∃ e g1, g.insert_edge a b = (.ok e, g1)) ∧
    ∀ e g1, g.insert_edge a b = (.ok e, g1) →
      a ∈ g.node_ids_ ∧
      ∃ n adj1, g.num_adjacencies a = .ok n ∧ g1.num_adjacencies a = .ok (n + 1) ∧
        g1.adjacency a = some adj1 ∧ adj1.count b = 1 := by
  have h := hr.inv
  constructor
  · intro hm hna hc
    obtain ⟨k, hk⟩ := List.mem_iff_getElem?.mp hm
    obtain ⟨adj, hadj⟩ := getElem?_some_of_len h.adjacencies_len hk
    have hb : b ∉ adj := fun hb =>
      hna ((has_adjacency_iff h.node_ids_asc a b).mpr ⟨k, adj, hk, hadj, hb⟩)
    exact ⟨_, _, insert_edge_of_fresh h a b hc hk hadj hb⟩
  · intro e g1 hins
    obtain ⟨k, adj, -, hk, hadj, hb, -, rfl⟩ := insert_edge_ok_inv h hins
    have hk1 : k < g.adjacencies_.length := (List.getElem?_eq_some.mp hadj).1
    have hset : (g.adjacencies_.set k (adj ++ [b]))[k]? = some (adj ++ [b]) := by
      rw [List.getElem?_set]
      simp [hk1]
    refine ⟨List.getElem?_mem hk, adj.length, adj ++ [b],
      num_adjacencies_of_present h.node_ids_asc hk hadj, ?_, ?_, ?_⟩
    · have := num_adjacencies_of_present (g := { g.with_edge a b with
          adjacencies_ := g.adjacencies_.set k (adj ++ [b]) }) h.node_ids_asc hk hset
      simpa using this
    · rw [adjacency_of_getElem (g := { g.with_edge a b with
          adjacencies_ := g.adjacencies_.set k (adj ++ [b]) }) h.node_ids_asc hk]
      exact hset
    · rw [List.count_append, List.count_eq_zero.mpr hb]
      simp

theorem insert_edge_adds_one_adjacency_witness :
    Reachable gap_nodes ∧
    gap_nodes.insert_edge 1 7 =
      (.ok 5, ⟨5, [10, 30], [[3, 7], []], [1, 3], [⟨1, 3⟩, ⟨1, 7⟩], [4, 5]⟩) ∧
    ((1 : Int) ∈ gap_nodes.node_ids_ ∧
    ∃ n adj1, gap_nodes.num_adjacencies 1 = .ok n ∧
      (⟨5, [10, 30], [[3, 7], []], [1, 3], [⟨1, 3⟩, ⟨1, 7⟩], [4, 5]⟩ :
        Graph Nat).num_adjacencies 1 = .ok (n + 1) ∧
      (⟨5, [10, 30], [[3, 7], []], [1, 3], [⟨1, 3⟩, ⟨1, 7⟩], [4, 5]⟩ :
        Graph Nat).adjacency 1 = some adj1 ∧ adj1.count 7 = 1) :=
  have hr : Reachable gap_nodes :=
    reachable_of_run
      [.insert_node 10, .insert_node 20, .insert_node 30, .insert_edge 1 3, .erase_node 2]
      [1, 2, 3, 4] (by decide)
  ⟨hr, by decide, (insert_edge_adds_one_adjacency gap_nodes hr 1 7).2 5 _ (by decide)⟩

/-! ## Erasing a node -/

/-- C6: in a reachable state, `erase_node(id)` of a stored `id` returns, makes
`node_ids_`, `nodes_` and `adjacencies_` one entry shorter, removes `id` from
`node_ids_`, and a following `node(id)` or `num_adjacencies(id)` fails its
assertion. -/
theorem erase_node_removes_id (g : Graph α) (hr : Reachable g) (id : Int)
    (hm : id ∈ g.node_ids_) :
    ∃ g1, g.erase_node id = (.ok (), g1) ∧
      g1.node_ids_.length + 1 = g.node_ids_.length ∧
      g1.nodes_.length + 1 = g.nodes_.length ∧
      g1.adjacencies_.length + 1 = g.adjacencies_.length ∧
      id ∉ g1.node_ids_ ∧
      g1.node id = .assert_failed ∧ g1.num_adjacencies id = .assert_failed := by
  have h := hr.inv
  obtain ⟨k, hk⟩ := List.mem_iff_getElem?.mp hm
  have hk1 : k < g.node_ids_.length := (List.getElem?_eq_some.mp hk).1
  have hgone : id ∉ vec_erase g.node_ids_ k := h.node_ids_asc.not_mem_erase_at hk
  refine ⟨_, erase_node_of_present h hk, vec_erase_length _ hk1,
    vec_erase_length _ (by rw [h.nodes_len]; exact hk1),
    vec_erase_length _ (by rw [h.adjacencies_len]; exact hk1), hgone,
    node_of_absent _ hgone, num_adjacencies_of_absent _ hgone⟩

theorem erase_node_removes_id_witness :
    Reachable three_nodes ∧ (2 : Int) ∈ three_nodes.node_ids_ ∧
    ∃ g1, three_nodes.erase_node 2 = (.ok (), g1) ∧
      g1.node_ids_.length + 1 = three_nodes.node_ids_.length ∧
      g1.nodes_.length + 1 = three_nodes.nodes_.length ∧
      g1.adjacencies_.length + 1 = three_nodes.adjacencies_.length ∧
      (2 : Int) ∉ g1.node_ids_ ∧
      g1.node 2 = .assert_failed ∧ g1.num_adjacencies 2 = .assert_failed :=
  have hr : Reachable three_nodes :=
    reachable_of_run [.insert_node 10, .insert_node 20, .insert_node 30] [1, 2, 3] (by decide)
  ⟨hr, by decide, erase_node_removes_id three_nodes hr 2 (by decide)⟩

/-- C7: in a reachable state, `erase_node(id)` of a stored `id` leaves every
other stored node `j` with its payload and its adjacency list, and leaves
`edge_ids_`, `edges_` and the counter as they were. -/
theorem erase_node_keeps_others (g : Graph α) (hr : Reachable g) (id j : Int)
    (hm : id ∈ g.node_ids_) (hj : j ∈ g.node_ids_) (hne : j ≠ id) :
    ∃ g1, g.erase_node id = (.ok (), g1) ∧
      (∃ p, g.node j = .ok p ∧ g1.node j = .ok p) ∧
      (∃ adj, g.adjacency j = some adj ∧ g1.adjacency j = some adj) ∧
      g1.edge_ids_ = g.edge_ids_ ∧ g1.edges_ = g.edges_ ∧
      g1.current_id_ = g.current_id_ := by
  have h := hr.inv
  obtain ⟨k, hk⟩ := List.mem_iff_getElem?.mp hm
  obtain ⟨m, hjm⟩ := List.mem_iff_getElem?.mp hj
  obtain ⟨p, hp⟩ := getElem?_some_of_len h.nodes_len hjm
  obtain ⟨adj, hadj⟩ := getElem?_some_of_len h.adjacencies_len hjm
  have hmk : m ≠ k := by
    intro heq
    rw [heq, hk] at hjm
    exact hne (Option.some.inj hjm).symm
  have hs1 : StrictAsc (vec_erase g.node_ids_ k) := h.node_ids_asc.erase_at k
  have hj1 := vec_erase_getElem?_of_ne (i := k) hjm hmk
  have hp1 := vec_erase_getElem?_of_ne (i := k) hp hmk
  have hadj1 := vec_erase_getElem?_of_ne (i := k) hadj hmk
  refine ⟨_, erase_node_of_present h hk, ⟨p, node_of_present h.node_ids_asc hjm hp, ?_⟩,
    ⟨adj, ?_, ?_⟩, rfl, rfl, rfl⟩
  · exact node_of_present (g := { g with
      node_ids_ := vec_erase g.node_ids_ k
      nodes_ := vec_erase g.nodes_ k
      adjacencies_ := vec_erase g.adjacencies_ k }) hs1 hj1 hp1
  · rw [adjacency_of_getElem h.node_ids_asc hjm]
    exact hadj
  · rw [adjacency_of_getElem (g := { g with
      node_ids_ := vec_erase g.node_ids_ k
      nodes_ := vec_erase g.nodes_ k
      adjacencies_ := vec_erase g.adjacencies_ k }) hs1 hj1]
    exact hadj1

theorem erase_node_keeps_others_witness :
    Reachable three_nodes ∧ (2 : Int) ∈ three_nodes.node_ids_ ∧
    (3 : Int) ∈ three_nodes.node_ids_ ∧ (3 : Int) ≠ 2 ∧
    ∃ g1, three_nodes.erase_node 2 = (.ok (), g1) ∧
      (∃ p, three_nodes.node 3 = .ok p ∧ g1.node 3 = .ok p) ∧
      (∃ adj, three_nodes.adjacency 3 = some adj ∧ g1.adjacency 3 = some adj) ∧
      g1.edge_ids_ = three_nodes.edge_ids_ ∧ g1.edges_ = three_nodes.edges_ ∧
      g1.current_id_ = three_nodes.current_id_ :=
  have hr : Reachable three_nodes :=
    reachable_of_run [.insert_node 10, .insert_node 20, .insert_node 30] [1, 2, 3] (by decide)
  ⟨hr, by decide, by decide, by decide,
    erase_node_keeps_others three_nodes hr 2 3 (by decide) (by decide) (by decide)⟩

/-! ## Erasing an edge -/

/-- C10: in a reachable state, `erase_edge(id)` of a stored `id` returns,
removes `id` from `edge_ids_` and its record from `edges_` (both one entry
shorter, every other edge id keeps its record), and leaves `node_ids_`,
`nodes_`, `adjacencies_` and the counter as they were, so that
`num_adjacencies` answers as before. -/
theorem erase_edge_frame (g : Graph α) (hr : Reachable g) (id : Int)
    (hm : id ∈ g.edge_ids_) :
    ∃ g1, g.erase_edge id = (.ok (), g1) ∧
      id ∉ g1.edge_ids_ ∧
      g1.edge_ids_.length + 1 = g.edge_ids_.length ∧
      g1.edges_.length + 1 = g.edges_.length ∧
      (∀ e ∈ g.edge_ids_, e ≠ id →
        e ∈ g1.edge_ids_ ∧ ∃ rec, g.edge e = some rec ∧ g1.edge e = some rec) ∧
      (∀ e ∈ g1.edge_ids_, e ∈ g.edge_ids_) ∧
      g1.node_ids_ = g.node_ids_ ∧ g1.nodes_ = g.nodes_ ∧
      g1.adjacencies_ = g.adjacencies_ ∧ g1.current_id_ = g.current_id_ ∧
      (∀ j, g1.num_adjacencies j = g.num_adjacencies j) := by
  have h := hr.inv
  obtain ⟨k, hk⟩ := List.mem_iff_getElem?.mp hm
  have hk1 : k < g.edge_ids_.length := (List.getElem?_eq_some.mp hk).1
  have hs1 : StrictAsc (vec_erase g.edge_ids_ k) := h.edge_ids_asc.erase_at k
  refine ⟨_, erase_edge_of_present h hk, h.edge_ids_asc.not_mem_erase_at hk,
    vec_erase_length _ hk1, vec_erase_length _ (by rw [h.edges_len]; exact hk1), ?_,
    fun e he => vec_erase_subset _ _ he, rfl, rfl, rfl, rfl, fun j => rfl⟩
  intro e he hne
  obtain ⟨m, hem⟩ := List.mem_iff_getElem?.mp he
  obtain ⟨rec, hrec⟩ := getElem?_some_of_len h.edges_len hem
  have hmk : m ≠ k := by
    intro heq
    rw [heq, hk] at hem
    exact hne (Option.some.inj hem).symm
  have he1 := vec_erase_getElem?_of_ne (i := k) hem hmk
  have hrec1 := vec_erase_getElem?_of_ne (i := k) hrec hmk
  refine ⟨List.getElem?_mem he1, rec, ?_, ?_⟩
  · rw [edge_of_getElem h.edge_ids_asc hem]
    exact hrec
  · rw [edge_of_getElem (g := { g with
      edge_ids_ := vec_erase g.edge_ids_ k
      edges_ := vec_erase g.edges_ k }) hs1 he1]
    exact hrec1

theorem erase_edge_frame_witness :
    Reachable two_edges ∧ (3 : Int) ∈ two_edges.edge_ids_ ∧
    ∃ g1, two_edges.erase_edge 3 = (.ok (), g1) ∧
      (3 : Int) ∉ g1.edge_ids_ ∧
      g1.edge_ids_.length + 1 = two_edges.edge_ids_.length ∧
      g1.edges_.length + 1 = two_edges.edges_.length ∧
      (∀ e ∈ two_edges.edge_ids_, e ≠ 3 →
        e ∈ g1.edge_ids_ ∧ ∃ rec, two_edges.edge e = some rec ∧ g1.edge e = some rec) ∧
      (∀ e ∈ g1.edge_ids_, e ∈ two_edges.edge_ids_) ∧
      g1.node_ids_ = two_edges.node_ids_ ∧ g1.nodes_ = two_edges.nodes_ ∧
      g1.adjacencies_ = two_edges.adjacencies_ ∧ g1.current_id_ = two_edges.current_id_ ∧
      (∀ j, g1.num_adjacencies j = two_edges.num_adjacencies j) :=
  have hr : Reachable two_edges :=
    reachable_of_run [.insert_node 10, .insert_node 20, .insert_edge 1 2, .insert_edge 2 1]
      [1, 2, 3, 4] (by decide)
  ⟨hr, by decide, erase_edge_frame two_edges hr 3 (by decide)⟩

/-! ## Adjacency entries and edge records -/

/-- C8, as the claim states it, fails after an erasure: after
`insert_node`, `insert_edge(1, 2)`, `erase_edge(2)` node 1 still lists 2 with
no edge stored, and after `insert_node`, `insert_edge(1, 2)`, `erase_node(1)`
the edge `(1, 2)` is stored with no node 1. -/
theorem adjacency_consistent_fails :
    (Reachable stale_adjacency ∧ stale_adjacency.has_adjacency 1 2 ∧
      ¬ stale_adjacency.has_edge 1 2 ∧ ¬ stale_adjacency.adjacency_consistent) ∧
    (Reachable dangling_edge ∧ dangling_edge.has_edge 1 2 ∧
      ¬ dangling_edge.has_adjacency 1 2 ∧ ¬ dangling_edge.adjacency_consistent) := by
  have hr1 : Reachable stale_adjacency :=
    reachable_of_run [.insert_node 10, .insert_edge 1 2, .erase_edge 2] [1, 2] (by decide)
  have hr2 : Reachable dangling_edge :=
    reachable_of_run [.insert_node 10, .insert_edge 1 2, .erase_node 1] [1, 2] (by decide)
  have ha1 : stale_adjacency.has_adjacency 1 2 := ⟨[2], by decide, by decide⟩
  have he1 : ¬ stale_adjacency.has_edge 1 2 := by
    simp [Graph.has_edge, stale_adjacency]
  have he2 : dangling_edge.has_edge 1 2 := by
    simp [Graph.has_edge, dangling_edge]
  have ha2 : ¬ dangling_edge.has_adjacency 1 2 := by
    rintro ⟨adj, hadj, -⟩
    simp [Graph.adjacency, dangling_edge] at hadj
  exact ⟨⟨hr1, ha1, he1, fun hc => he1 ((hc 1 2).mp ha1)⟩,
    ⟨hr2, he2, ha2, fun hc => ha2 ((hc 1 2).mpr he2)⟩⟩

theorem getElem?_append_singleton {β : Type} {v : List β} {x y : β} {k : Nat}
    (hk : (v ++ [x])[k]? = some y) :
    (k < v.length ∧ v[k]? = some y) ∨ (k = v.length ∧ y = x) := by
  by_cases hlt : k < v.length
  · rw [List.getElem?_append_left hlt] at hk
    exact Or.inl ⟨hlt, hk⟩
  · have hlen : k < (v ++ [x]).length := (List.getElem?_eq_some.mp hk).1
    rw [List.length_append, List.length_singleton] at hlen
    have hkv : k = v.length := by omega
    subst hkv
    rw [getElem?_append_length] at hk
    exact Or.inr ⟨rfl, (Option.some.inj hk).symm⟩

/-- The position an entry had before position `i` was erased. -/
theorem vec_erase_getElem?_origin {β : Type} {v : List β} {i k : Nat} {x : β}
    (hk : (vec_erase v i)[k]? = some x) : ∃ m, m ≠ i ∧ v[m]? = some x ∧
      (if m < i then m else m - 1) = k := by
  rw [vec_erase_getElem?] at hk
  by_cases h : k < i
  · rw [if_pos h] at hk
    exact ⟨k, by omega, hk, by simp [h]⟩
  · rw [if_neg h] at hk
    refine ⟨k + 1, by omega, hk, ?_⟩
    have : ¬ (k + 1 < i) := by omega
    simp [this]

/-- Every call but `erase_edge` keeps: an adjacency entry has its edge. -/
theorem adjacency_has_edge_step {g : Graph α} (h : g.Inv)
    (hI : ∀ a b, g.has_adjacency a b → g.has_edge a b) {op : Op α} {r : Option Int}
    {g1 : Graph α} (hop : g.apply op = (.ok r, g1)) (hne : op.is_erase_edge = false) :
    ∀ a b, g1.has_adjacency a b → g1.has_edge a b := by
  have h1 := h.step hop
  intro a b hab
  rw [has_adjacency_iff h1.node_ids_asc] at hab
  obtain ⟨k, adj, hk, hadj, hb⟩ := hab
  rcases apply_ok_cases h hop with ⟨p, -, -, -, rfl⟩ | ⟨id, k0, -, hk0, -, rfl⟩ |
    ⟨a0, b0, k0, adj0, -, -, hk0, hadj0, -, -, rfl⟩ | ⟨id, k0, hx, -⟩
  · dsimp only at hk hadj
    rcases getElem?_append_singleton hadj with ⟨hlt, hadj1⟩ | ⟨hkl, hnil⟩
    · rw [List.getElem?_append_left (by rw [← h.adjacencies_len]; exact hlt)] at hk
      exact hI a b ((has_adjacency_iff h.node_ids_asc a b).mpr ⟨k, adj, hk, hadj1, hb⟩)
    · subst hnil
      exact absurd hb (List.not_mem_nil _)
  · dsimp only at hk hadj
    obtain ⟨m, hm, hkm, hpos⟩ := vec_erase_getElem?_origin hk
    obtain ⟨m1, hm1, hadjm, hpos1⟩ := vec_erase_getElem?_origin hadj
    have hmm : m = m1 := by
      by_cases c1 : m < k0 <;> by_cases c2 : m1 < k0 <;> simp [c1, c2] at hpos hpos1 <;> omega
    subst hmm
    exact hI a b ((has_adjacency_iff h.node_ids_asc a b).mpr ⟨m, adj, hkm, hadjm, hb⟩)
  · dsimp only [Graph.with_edge] at hk hadj
    show (⟨a, b⟩ : Edge) ∈ g.edges_ ++ [⟨a0, b0⟩]
    rw [List.getElem?_set] at hadj
    by_cases hkk : k0 = k
    · subst hkk
      have hlen : k0 < g.adjacencies_.length := (List.getElem?_eq_some.mp hadj0).1
      simp only [if_true, hlen, Option.some.injEq] at hadj
      subst hadj
      rw [hk0] at hk
      have haa : a0 = a := Option.some.inj hk
      subst haa
      rcases List.mem_append.mp hb with hb1 | hb1
      · exact List.mem_append_left _
          (hI a0 b ((has_adjacency_iff h.node_ids_asc a0 b).mpr ⟨k0, adj0, hk0, hadj0, hb1⟩))
      · rw [List.mem_singleton] at hb1
        subst hb1
        exact List.mem_append_right _ (List.mem_singleton_self _)
    · rw [if_neg hkk] at hadj
      exact List.mem_append_left _
        (hI a b ((has_adjacency_iff h.node_ids_asc a b).mpr ⟨k, adj, hk, hadj, hb⟩))
  · subst hx
    exact absurd hne (by simp [Op.is_erase_edge])

/-- Every call but `erase_node` keeps: a stored edge has its adjacency
entry. -/
theorem edge_has_adjacency_step {g : Graph α} (h : g.Inv)
    (hI : ∀ a b, g.has_edge a b → g.has_adjacency a b) {op : Op α} {r : Option Int}
    {g1 : Graph α} (hop : g.apply op = (.ok r, g1)) (hne : op.is_erase_node = false) :
    ∀ a b, g1.has_edge a b → g1.has_adjacency a b := by
  have h1 := h.step hop
  intro a b hab
  rw [has_adjacency_iff h1.node_ids_asc]
  rcases apply_ok_cases h hop with ⟨p, -, -, -, rfl⟩ | ⟨id, k0, hx, -⟩ |
    ⟨a0, b0, k0, adj0, -, -, hk0, hadj0, -, -, rfl⟩ | ⟨id, k0, -, hk0, -, rfl⟩
  · obtain ⟨k, adj, hk, hadj, hb⟩ := (has_adjacency_iff h.node_ids_asc a b).mp (hI a b hab)
    have hk1 : k < g.node_ids_.length := (List.getElem?_eq_some.mp hk).1
    refine ⟨k, adj, ?_, ?_, hb⟩
    · show (g.node_ids_ ++ [g.current_id_ + 1])[k]? = some a
      rw [List.getElem?_append_left hk1]
      exact hk
    · show (g.adjacencies_ ++ [[]])[k]? = some adj
      rw [List.getElem?_append_left (by rw [h.adjacencies_len]; exact hk1)]
      exact hadj
  · subst hx
    exact absurd hne (by simp [Op.is_erase_node])
  · have hlen : k0 < g.adjacencies_.length := (List.getElem?_eq_some.mp hadj0).1
    have hset : (g.adjacencies_.set k0 (adj0 ++ [b0]))[k0]? = some (adj0 ++ [b0]) := by
      rw [List.getElem?_set]
      simp [hlen]
    have hab1 : (⟨a, b⟩ : Edge) ∈ g.edges_ ++ [⟨a0, b0⟩] := hab
    rcases List.mem_append.mp hab1 with hold | hnew
    · obtain ⟨k, adj, hk, hadj, hb⟩ := (has_adjacency_iff h.node_ids_asc a b).mp (hI a b hold)
      by_cases hkk : k0 = k
      · subst hkk
        rw [hadj0] at hadj
        have : adj0 = adj := Option.some.inj hadj
        subst this
        exact ⟨k0, adj0 ++ [b0], hk, hset, List.mem_append_left _ hb⟩
      · refine ⟨k, adj, hk, ?_, hb⟩
        show (g.adjacencies_.set k0 (adj0 ++ [b0]))[k]? = some adj
        rw [List.getElem?_set, if_neg hkk]
        exact hadj
    · rw [List.mem_singleton] at hnew
      have ha : a = a0 := congrArg Edge.from_ hnew
      have hb : b = b0 := congrArg Edge.to_ hnew
      subst ha
      subst hb
      exact ⟨k0, adj0 ++ [b], hk0, hset, List.mem_append_right _ (List.mem_singleton_self _)⟩
  · have hold : g.has_edge a b := vec_erase_subset g.edges_ k0 hab
    exact (has_adjacency_iff h.node_ids_asc a b).mp (hI a b hold)

/-- Both directions along a run, each under its restriction on the calls. -/
theorem run_adjacency_consistent {ops : List (Op α)} :
    ∀ {g : Graph α} {ids : List Int} {g1 : Graph α},
      g.Inv → g.run ops = some (ids, g1) →
      ((∀ op ∈ ops, op.is_erase_edge = false) →
        (∀ a b, g.has_adjacency a b → g.has_edge a b) →
        ∀ a b, g1.has_adjacency a b → g1.has_edge a b) ∧
      ((∀ op ∈ ops, op.is_erase_node = false) →
        (∀ a b, g.has_edge a b → g.has_adjacency a b) →
        ∀ a b, g1.has_edge a b → g1.has_adjacency a b) := by
  induction ops with
  | nil =>
    intro g ids g1 _ hrun
    simp only [Graph.run, Option.some.injEq, Prod.mk.injEq] at hrun
    rw [← hrun.2]
    exact ⟨fun _ hI => hI, fun _ hI => hI⟩
  | cons op ops ih =>
    intro g ids g1 h hrun
    rw [Graph.run] at hrun
    split at hrun
    · rename_i r g2 hop
      split at hrun
      · rename_i ids2 g3 hrest
        simp only [Option.some.injEq, Prod.mk.injEq] at hrun
        obtain ⟨i1, i2⟩ := ih (h.step hop) hrest
        rw [← hrun.2]
        constructor
        · intro hops hI
          exact i1 (fun o ho => hops o (List.mem_cons_of_mem _ ho))
            (adjacency_has_edge_step h hI hop (hops op (List.mem_cons_self _ _)))
        · intro hops hI
          exact i2 (fun o ho => hops o (List.mem_cons_of_mem _ ho))
            (edge_has_adjacency_step h hI hop (hops op (List.mem_cons_self _ _)))
      · exact absurd hrun (by simp)
    · exact absurd hrun (by simp)

/-- On a run from the empty graph: without `erase_edge` every adjacency entry
has its edge, without `erase_node` every stored edge has its adjacency entry,
and with neither kind of erasure the two agree. -/
theorem run_from_empty_consistent (ops : List (Op α)) (ids : List Int)
    (g : Graph α) (hrun : (Graph.empty : Graph α).run ops = some (ids, g)) :
    ((∀ op ∈ ops, op.is_erase_edge = false) →
      ∀ a b, g.has_adjacency a b → g.has_edge a b) ∧
    ((∀ op ∈ ops, op.is_erase_node = false) →
      ∀ a b, g.has_edge a b → g.has_adjacency a b) ∧
    ((∀ op ∈ ops, op.is_erase_edge = false ∧ op.is_erase_node = false) →
      g.adjacency_consistent) := by
  obtain ⟨i1, i2⟩ := run_adjacency_consistent Graph.Inv.init hrun
  have b1 : ∀ a b, (Graph.empty : Graph α).has_adjacency a b →
      (Graph.empty : Graph α).has_edge a b := by
    rintro a b ⟨adj, hadj, -⟩
    simp [Graph.adjacency, Graph.empty] at hadj
  have b2 : ∀ a b, (Graph.empty : Graph α).has_edge a b →
      (Graph.empty : Graph α).has_adjacency a b := by
    intro a b hab
    simp [Graph.has_edge, Graph.empty] at hab
  refine ⟨fun hops => i1 hops b1, fun hops => i2 hops b2, fun hops a b => ⟨?_, ?_⟩⟩
  · exact i1 (fun o ho => (hops o ho).1) b1 a b
  · exact i2 (fun o ho => (hops o ho).2) b2 a b

/-! ## Calls that violate a precondition -/

/-- C9, as the claim states it, fails for `insert_edge`: on the empty graph
`insert_edge(1, 2)` fails the assertion on `from` with the counter incremented
and the edge record stored, and on `two_edges` the duplicate `insert_edge(1, 2)`
fails its assertion in the same way. -/
theorem insert_edge_violation_mutates :
    (Reachable (Graph.empty : Graph Nat) ∧ (1 : Int) ∉ (Graph.empty : Graph Nat).node_ids_ ∧
      (Graph.empty : Graph Nat).insert_edge 1 2 =
        (.assert_failed, ⟨1, [], [], [], [⟨1, 2⟩], [1]⟩) ∧
      ((Graph.empty : Graph Nat).insert_edge 1 2).2 ≠ Graph.empty) ∧
    (Reachable two_edges ∧ two_edges.has_adjacency 1 2 ∧
      two_edges.insert_edge 1 2 =
        (.assert_failed,
          ⟨5, [10, 20], [[2], [1]], [1, 2], [⟨1, 2⟩, ⟨2, 1⟩, ⟨1, 2⟩], [3, 4, 5]⟩) ∧
      (two_edges.insert_edge 1 2).2 ≠ two_edges) :=
  ⟨⟨Reachable.init, by decide, by decide, by decide⟩,
    ⟨reachable_of_run [.insert_node 10, .insert_node 20, .insert_edge 1 2, .insert_edge 2 1]
        [1, 2, 3, 4] (by decide),
      ⟨[2], by decide, by decide⟩, by decide, by decide⟩⟩

/-- C9, amended: in a reachable state a lookup or an erasure of an absent id
fails its assertion with the state untouched; `insert_edge(from, to)` with
`from` absent or `to` already adjacent to `from` never returns, leaves
`node_ids_`, `nodes_` and `adjacencies_` untouched, and (below `INT_MAX`) fails
its assertion after the counter was incremented and the edge record stored. -/
theorem violation_outcomes (g : Graph α) (hr : Reachable g) :
    (∀ id, id ∉ g.node_ids_ →
      g.node id = .assert_failed ∧ g.num_adjacencies id = .assert_failed ∧
      g.erase_node id = (.assert_failed, g)) ∧
    (∀ id, id ∉ g.edge_ids_ → g.erase_edge id = (.assert_failed, g)) ∧
    (∀ a b, (a ∉ g.node_ids_ ∨ g.has_adjacency a b) →
      (∀ e, (g.insert_edge a b).1 ≠ .ok e) ∧
      (g.current_id_ < INT_MAX → g.insert_edge a b = (.assert_failed, g.with_edge a b)) ∧
      (g.insert_edge a b).2.node_ids_ = g.node_ids_ ∧
      (g.insert_edge a b).2.nodes_ = g.nodes_ ∧
      (g.insert_edge a b).2.adjacencies_ = g.adjacencies_) := by
  have h := hr.inv
  refine ⟨fun id hm => ⟨node_of_absent g hm, num_adjacencies_of_absent g hm,
    erase_node_of_absent g hm⟩, fun id hm => erase_edge_of_absent g hm, ?_⟩
  intro a b hv
  by_cases hc : g.current_id_ < INT_MAX
  · have heq : g.insert_edge a b = (.assert_failed, g.with_edge a b) := by
      rcases hv with hm | hadj
      · exact insert_edge_of_absent h a b hc hm
      · obtain ⟨k, adj, hk, hadj1, hb⟩ := (has_adjacency_iff h.node_ids_asc a b).mp hadj
        exact insert_edge_of_duplicate h a b hc hk hadj1 hb
    rw [heq]
    exact ⟨fun e => by simp, fun _ => rfl, rfl, rfl, rfl⟩
  · rw [insert_edge_overflow g a b (not_lt.mp hc)]
    exact ⟨fun e => by simp, fun hlt => absurd hlt hc, rfl, rfl, rfl⟩

theorem violation_outcomes_witness :
    Reachable two_edges ∧
    ((∀ id, id ∉ two_edges.node_ids_ →
      two_edges.node id = .assert_failed ∧ two_edges.num_adjacencies id = .assert_failed ∧
      two_edges.erase_node id = (.assert_failed, two_edges)) ∧
    (∀ id, id ∉ two_edges.edge_ids_ → two_edges.erase_edge id = (.assert_failed, two_edges)) ∧
    (∀ a b, (a ∉ two_edges.node_ids_ ∨ two_edges.has_adjacency a b) →
      (∀ e, (two_edges.insert_edge a b).1 ≠ .ok e) ∧
      (two_edges.current_id_ < INT_MAX →
        two_edges.insert_edge a b = (.assert_failed, two_edges.with_edge a b)) ∧
      (two_edges.insert_edge a b).2.node_ids_ = two_edges.node_ids_ ∧
      (two_edges.insert_edge a b).2.nodes_ = two_edges.nodes_ ∧
      (two_edges.insert_edge a b).2.adjacencies_ = two_edges.adjacencies_)) :=
  have hr : Reachable two_edges :=
    reachable_of_run [.insert_node 10, .insert_node 20, .insert_edge 1 2, .insert_edge 2 1]
      [1, 2, 3, 4] (by decide)
  ⟨hr, violation_outcomes two_edges hr⟩

/-! ## Insertions and the nodes already stored -/

/-- What a returning `insert_node` did, on a state that satisfies the
invariant. -/
theorem insert_node_ok_inv {g : Graph α} (h : g.Inv) {p : α} {id : Int} {g1 : Graph α}
    (hins : g.insert_node p = (.ok id, g1)) :
    g.current_id_ < INT_MAX ∧ id = g.current_id_ + 1 ∧
    g1 = { g with
            current_id_ := g.current_id_ + 1
            node_ids_ := g.node_ids_ ++ [g.current_id_ + 1]
            nodes_ := g.nodes_ ++ [p]
            adjacencies_ := g.adjacencies_ ++ [[]] } := by
  by_cases hc : g.current_id_ < INT_MAX
  · rw [insert_node_of_inv h p hc] at hins
    simp only [Prod.mk.injEq, Outcome.ok.injEq] at hins
    exact ⟨hc, hins.1.symm, hins.2.symm⟩
  · rw [insert_node_overflow g p (not_lt.mp hc)] at hins
    simp at hins

/-- C11: in a reachable state every stored node `j` has a payload and an
adjacency count that a returning `insert_node(q)` leaves as they are, and a
returning `insert_edge(from, to)` leaves the payload as it is and the count as
it is for `j != from` (for `j == from` the count grows by one). -/
theorem insertions_keep_nodes (g : Graph α) (hr : Reachable g) (j : Int)
    (hj : j ∈ g.node_ids_) :
    ∃ p n, g.node j = .ok p ∧ g.num_adjacencies j = .ok n ∧
      (∀ q id g1, g.insert_node q = (.ok id, g1) →
        g1.node j = .ok p ∧ g1.num_adjacencies j = .ok n) ∧
      (∀ a b e g1, g.insert_edge a b = (.ok e, g1) →
        g1.node j = .ok p ∧ (j ≠ a → g1.num_adjacencies j = .ok n) ∧
        (j = a → g1.num_adjacencies j = .ok (n + 1))) := by
  have h := hr.inv
  obtain ⟨m, hm⟩ := List.mem_iff_getElem?.mp hj
  have hm1 : m < g.node_ids_.length := (List.getElem?_eq_some.mp hm).1
  obtain ⟨p, hp⟩ := getElem?_some_of_len h.nodes_len hm
  obtain ⟨adj, hadj⟩ := getElem?_some_of_len h.adjacencies_len hm
  have hnode : g.node j = .ok p := node_of_present h.node_ids_asc hm hp
  refine ⟨p, adj.length, hnode, num_adjacencies_of_present h.node_ids_asc hm hadj, ?_, ?_⟩
  · intro q id g1 hins
    have hop : g.apply (.insert_node q) = (.ok (some id), g1) := by
      simp [Graph.apply, hins, Outcome.issued]
    have h1 := h.step hop
    obtain ⟨-, -, rfl⟩ := insert_node_ok_inv h hins
    have hm2 : (g.node_ids_ ++ [g.current_id_ + 1])[m]? = some j := by
      rw [List.getElem?_append_left hm1]
      exact hm
    have hp2 : (g.nodes_ ++ [q])[m]? = some p := by
      rw [List.getElem?_append_left (by rw [h.nodes_len]; exact hm1)]
      exact hp
    have hadj2 : (g.adjacencies_ ++ [[]])[m]? = some adj := by
      rw [List.getElem?_append_left (by rw [h.adjacencies_len]; exact hm1)]
      exact hadj
    exact ⟨node_of_present h1.node_ids_asc hm2 hp2,
      num_adjacencies_of_present h1.node_ids_asc hm2 hadj2⟩
  · intro a b e g1 hins
    obtain ⟨k, adj0, -, hk, hadj0, -, -, rfl⟩ := insert_edge_ok_inv h hins
    have hk1 : k < g.adjacencies_.length := (List.getElem?_eq_some.mp hadj0).1
    refine ⟨hnode, ?_, ?_⟩
    · intro hne
      have hkm : k ≠ m := by
        intro heq
        rw [heq, hm] at hk
        exact hne (Option.some.inj hk)
      have hadj2 : (g.adjacencies_.set k (adj0 ++ [b]))[m]? = some adj := by
        rw [List.getElem?_set, if_neg hkm]
        exact hadj
      have := num_adjacencies_of_present (g := { g.with_edge a b with
        adjacencies_ := g.adjacencies_.set k (adj0 ++ [b]) }) h.node_ids_asc hm hadj2
      exact this
    · intro heq
      subst heq
      have hkm : k = m := h.node_ids_asc.index_unique hk hm
      subst hkm
      rw [hadj0] at hadj
      have hadj3 : adj0 = adj := Option.some.inj hadj
      subst hadj3
      have hset : (g.adjacencies_.set k (adj0 ++ [b]))[k]? = some (adj0 ++ [b]) := by
        rw [List.getElem?_set]
        simp [hk1]
      have := num_adjacencies_of_present (g := { g.with_edge j b with
        adjacencies_ := g.adjacencies_.set k (adj0 ++ [b]) }) h.node_ids_asc hk hset
      simpa using this

theorem insertions_keep_nodes_witness :
    (Graph.empty : Graph ℚ).run [.insert_node 1.0, .insert_node 2.0] =
      some ([1, 2], payloads_ab) ∧
    (1 : Int) ∈ payloads_ab.node_ids_ ∧
    payloads_ab.insert_edge 1 2 = (.ok 3, linked_ab) ∧
    (∃ p n, payloads_ab.node 1 = .ok p ∧ payloads_ab.num_adjacencies 1 = .ok n ∧
      (∀ q id g1, payloads_ab.insert_node q = (.ok id, g1) →
        g1.node 1 = .ok p ∧ g1.num_adjacencies 1 = .ok n) ∧
      (∀ a b e g1, payloads_ab.insert_edge a b = (.ok e, g1) →
        g1.node 1 = .ok p ∧ ((1 : Int) ≠ a → g1.num_adjacencies 1 = .ok n) ∧
        ((1 : Int) = a → g1.num_adjacencies 1 = .ok (n + 1)))) ∧
    (linked_ab.node 1 = .ok 1.0 ∧ linked_ab.node 2 = .ok 2.0 ∧
      linked_ab.num_adjacencies 1 = .ok 1 ∧ linked_ab.num_adjacencies 2 = .ok 0) :=
  have hrun : (Graph.empty : Graph ℚ).run [.insert_node 1.0, .insert_node 2.0] =
      some ([1, 2], payloads_ab) := rfl
  ⟨hrun, by decide, rfl,
    insertions_keep_nodes payloads_ab (reachable_of_run _ _ hrun) 1 (by decide),
    rfl, rfl, rfl, rfl⟩

/-! ## The sorted insert always appends -/

/-- C12: in a reachable state every stored node id and edge id lies between 1
and the counter; so the binary search for the next id ends at the end of
`node_ids_` and of `edge_ids_`, the assertion of the sorted insert holds,
`insert_node` never fails an assertion and, whenever it returns, has appended
the new id, the payload and an empty adjacency list (it returns unless the
counter stands at `INT_MAX`), and a returning `insert_edge` has appended the
new id and the edge record. -/
theorem sorted_insert_appends (g : Graph α) (hr : Reachable g) :
    (∀ id ∈ g.node_ids_, 1 ≤ id ∧ id ≤ g.current_id_) ∧
    (∀ id ∈ g.edge_ids_, 1 ≤ id ∧ id ≤ g.current_id_) ∧
    lower_bound g.node_ids_ (g.current_id_ + 1) = g.node_ids_.length ∧
    lower_bound g.edge_ids_ (g.current_id_ + 1) = g.edge_ids_.length ∧
    insert_position_ok g.node_ids_ (lower_bound g.node_ids_ (g.current_id_ + 1))
      (g.current_id_ + 1) ∧
    insert_position_ok g.edge_ids_ (lower_bound g.edge_ids_ (g.current_id_ + 1))
      (g.current_id_ + 1) ∧
    (∀ p, (g.insert_node p).1 ≠ .assert_failed) ∧
    (∀ p, g.current_id_ < INT_MAX → ∃ g1, g.insert_node p = (.ok (g.current_id_ + 1), g1)) ∧
    (∀ p id g1, g.insert_node p = (.ok id, g1) →
      id = g.current_id_ + 1 ∧ g1.current_id_ = g.current_id_ + 1 ∧
      g1.node_ids_ = g.node_ids_ ++ [g.current_id_ + 1] ∧
      g1.nodes_ = g.nodes_ ++ [p] ∧
      g1.adjacencies_ = g.adjacencies_ ++ [[]] ∧
      g1.edge_ids_ = g.edge_ids_ ∧ g1.edges_ = g.edges_) ∧
    (∀ a b e g1, g.insert_edge a b = (.ok e, g1) →
      e = g.current_id_ + 1 ∧
      g1.edge_ids_ = g.edge_ids_ ++ [g.current_id_ + 1] ∧
      g1.edges_ = g.edges_ ++ [⟨a, b⟩]) := by
  have h := hr.inv
  have hn : lower_bound g.node_ids_ (g.current_id_ + 1) = g.node_ids_.length :=
    lower_bound_of_gt h.node_ids_asc (fun x hx => by
      have := (h.node_ids_bound x hx).2
      omega)
  have he : lower_bound g.edge_ids_ (g.current_id_ + 1) = g.edge_ids_.length :=
    (insert_edge_first_block h).1
  refine ⟨h.node_ids_bound, h.edge_ids_bound, hn, he, Or.inl hn, Or.inl he, ?_, ?_, ?_, ?_⟩
  · intro p
    by_cases hc : g.current_id_ < INT_MAX
    · rw [insert_node_of_inv h p hc]
      simp
    · rw [insert_node_overflow g p (not_lt.mp hc)]
      simp
  · intro p hc
    exact ⟨_, insert_node_of_inv h p hc⟩
  · intro p id g1 hins
    obtain ⟨-, hid, rfl⟩ := insert_node_ok_inv h hins
    exact ⟨hid, rfl, rfl, rfl, rfl, rfl, rfl⟩
  · intro a b e g1 hins
    obtain ⟨k, adj, -, -, -, -, hid, rfl⟩ := insert_edge_ok_inv h hins
    exact ⟨hid, rfl, rfl⟩

theorem sorted_insert_appends_witness :
    Reachable gap_nodes ∧
    ((∀ id ∈ gap_nodes.node_ids_, 1 ≤ id ∧ id ≤ gap_nodes.current_id_) ∧
    (∀ id ∈ gap_nodes.edge_ids_, 1 ≤ id ∧ id ≤ gap_nodes.current_id_) ∧
    lower_bound gap_nodes.node_ids_ (gap_nodes.current_id_ + 1) = gap_nodes.node_ids_.length ∧
    lower_bound gap_nodes.edge_ids_ (gap_nodes.current_id_ + 1) = gap_nodes.edge_ids_.length ∧
    insert_position_ok gap_nodes.node_ids_
      (lower_bound gap_nodes.node_ids_ (gap_nodes.current_id_ + 1))
      (gap_nodes.current_id_ + 1) ∧
    insert_position_ok gap_nodes.edge_ids_
      (lower_bound gap_nodes.edge_ids_ (gap_nodes.current_id_ + 1))
      (gap_nodes.current_id_ + 1) ∧
    (∀ p, (gap_nodes.insert_node p).1 ≠ .assert_failed) ∧
    (∀ p, gap_nodes.current_id_ < INT_MAX →
      ∃ g1, gap_nodes.insert_node p = (.ok (gap_nodes.current_id_ + 1), g1)) ∧
    (∀ p id g1, gap_nodes.insert_node p = (.ok id, g1) →
      id = gap_nodes.current_id_ + 1 ∧ g1.current_id_ = gap_nodes.current_id_ + 1 ∧
      g1.node_ids_ = gap_nodes.node_ids_ ++ [gap_nodes.current_id_ + 1] ∧
      g1.nodes_ = gap_nodes.nodes_ ++ [p] ∧
      g1.adjacencies_ = gap_nodes.adjacencies_ ++ [[]] ∧
      g1.edge_ids_ = gap_nodes.edge_ids_ ∧ g1.edges_ = gap_nodes.edges_) ∧
    (∀ a b e g1, gap_nodes.insert_edge a b = (.ok e, g1) →
      e = gap_nodes.current_id_ + 1 ∧
      g1.edge_ids_ = gap_nodes.edge_ids_ ++ [gap_nodes.current_id_ + 1] ∧
      g1.edges_ = gap_nodes.edges_ ++ [⟨a, b⟩])) :=
  have hr : Reachable gap_nodes :=
    reachable_of_run
      [.insert_node 10, .insert_node 20, .insert_node 30, .insert_edge 1 3, .erase_node 2]
      [1, 2, 3, 4] (by decide)
  ⟨hr, sorted_insert_appends gap_nodes hr⟩

/-! ## An adjacency entry outlives its edge -/

/-- Every returning call but `erase_node(a)` keeps an adjacency entry of
node `a`. -/
theorem has_adjacency_step {g : Graph α} (h : g.Inv) {a b : Int}
    (hab : g.has_adjacency a b) {op : Op α} {r : Option Int} {g1 : Graph α}
    (hop : g.apply op = (.ok r, g1)) (hne : op ≠ .erase_node a) :
    g1.has_adjacency a b := by
  have h1 := h.step hop
  rw [has_adjacency_iff h1.node_ids_asc]
  obtain ⟨k, adj, hk, hadj, hb⟩ := (has_adjacency_iff h.node_ids_asc a b).mp hab
  have hk1 : k < g.node_ids_.length := (List.getElem?_eq_some.mp hk).1
  rcases apply_ok_cases h hop with ⟨p, -, -, -, rfl⟩ | ⟨id, k0, hx, hk0, -, rfl⟩ |
    ⟨a0, b0, k0, adj0, -, -, hk0, hadj0, -, -, rfl⟩ | ⟨id, k0, -, hk0, -, rfl⟩
  · refine ⟨k, adj, ?_, ?_, hb⟩
    · show (g.node_ids_ ++ [g.current_id_ + 1])[k]? = some a
      rw [List.getElem?_append_left hk1]
      exact hk
    · show (g.adjacencies_ ++ [[]])[k]? = some adj
      rw [List.getElem?_append_left (by rw [h.adjacencies_len]; exact hk1)]
      exact hadj
  · have hkk : k ≠ k0 := by
      intro heq
      rw [heq, hk0] at hk
      have hid : id = a := Option.some.inj hk
      rw [hx, hid] at hne
      exact hne rfl
    exact ⟨if k < k0 then k else k - 1, adj, vec_erase_getElem?_of_ne hk hkk,
      vec_erase_getElem?_of_ne hadj hkk, hb⟩
  · by_cases hkk : k0 = k
    · subst hkk
      rw [hadj0] at hadj
      have hadj1 : adj0 = adj := Option.some.inj hadj
      subst hadj1
      have hlen : k0 < g.adjacencies_.length := (List.getElem?_eq_some.mp hadj0).1
      refine ⟨k0, adj0 ++ [b0], hk, ?_, List.mem_append_left _ hb⟩
      show (g.adjacencies_.set k0 (adj0 ++ [b0]))[k0]? = some (adj0 ++ [b0])
      rw [List.getElem?_set]
      simp [hlen]
    · refine ⟨k, adj, hk, ?_, hb⟩
      show (g.adjacencies_.set k0 (adj0 ++ [b0]))[k]? = some adj
      rw [List.getElem?_set, if_neg hkk]
      exact hadj
  · exact ⟨k, adj, hk, hadj, hb⟩

/-- A run without `erase_node(a)` keeps an adjacency entry of node `a`. -/
theorem run_keeps_adjacency {ops : List (Op α)} {a b : Int} :
    ∀ {g : Graph α} {ids : List Int} {g1 : Graph α},
      g.Inv → g.has_adjacency a b → g.run ops = some (ids, g1) →
      (∀ op ∈ ops, op ≠ .erase_node a) → g1.has_adjacency a b := by
  induction ops with
  | nil =>
    intro g ids g1 _ hab hrun _
    simp only [Graph.run, Option.some.injEq, Prod.mk.injEq] at hrun
    exact hrun.2 ▸ hab
  | cons op ops ih =>
    intro g ids g1 h hab hrun hno
    rw [Graph.run] at hrun
    split at hrun
    · rename_i r g2 hop
      split at hrun
      · rename_i ids2 g3 hrest
        simp only [Option.some.injEq, Prod.mk.injEq] at hrun
        rw [← hrun.2]
        exact ih (h.step hop)
          (has_adjacency_step h hab hop (hno op (List.mem_cons_self _ _))) hrest
          (fun o ho => hno o (List.mem_cons_of_mem _ ho))
      · exact absurd hrun (by simp)
    · exact absurd hrun (by simp)

/-- C13: in a reachable state, let `insert_edge(from, to)` return `e`, let
calls other than `erase_node(from)` follow, then `erase_edge(e)`, then again
calls other than `erase_node(from)`. The edge `e` is gone, `to` is still in
the adjacency list of `from`, and `insert_edge(from, to)` does not return: it
fails the assertion on the duplicate (as long as the counter is below
`INT_MAX`). -/
theorem erased_edge_not_reinsertable (g : Graph α) (hr : Reachable g) (a b e : Int)
    (g1 : Graph α) (hins : g.insert_edge a b = (.ok e, g1))
    (ops1 : List (Op α)) (ids1 : List Int) (g2 : Graph α)
    (hrun1 : g1.run ops1 = some (ids1, g2)) (hno1 : ∀ op ∈ ops1, op ≠ .erase_node a)
    (g3 : Graph α) (her : g2.erase_edge e = (.ok (), g3))
    (ops2 : List (Op α)) (ids2 : List Int) (g4 : Graph α)
    (hrun2 : g3.run ops2 = some (ids2, g4)) (hno2 : ∀ op ∈ ops2, op ≠ .erase_node a) :
    e ∉ g3.edge_ids_ ∧ g4.has_adjacency a b ∧
    (∀ e2, (g4.insert_edge a b).1 ≠ .ok e2) ∧
    (g4.current_id_ < INT_MAX →
      g4.insert_edge a b = (.assert_failed, g4.with_edge a b)) := by
  have h := hr.inv
  have hop1 : g.apply (.insert_edge a b) = (.ok (some e), g1) := by
    simp [Graph.apply, hins, Outcome.issued]
  have hr1 : Reachable g1 := Reachable.step g _ _ g1 hr hop1
  have hr2 : Reachable g2 := Reachable.run hr1 hrun1
  have hop3 : g2.apply (.erase_edge e) = (.ok none, g3) := by
    simp [Graph.apply, her, Outcome.no_id]
  have hr3 : Reachable g3 := Reachable.step g2 _ _ g3 hr2 hop3
  have hr4 : Reachable g4 := Reachable.run hr3 hrun2
  have hab1 : g1.has_adjacency a b := by
    obtain ⟨k, adj, -, hk, hadj, -, -, hg1⟩ := insert_edge_ok_inv h hins
    have hk1 : k < g.adjacencies_.length := (List.getElem?_eq_some.mp hadj).1
    rw [has_adjacency_iff hr1.inv.node_ids_asc]
    subst hg1
    refine ⟨k, adj ++ [b], hk, ?_, List.mem_append_right _ (List.mem_singleton_self _)⟩
    show (g.adjacencies_.set k (adj ++ [b]))[k]? = some (adj ++ [b])
    rw [List.getElem?_set]
    simp [hk1]
  have hab2 : g2.has_adjacency a b := run_keeps_adjacency hr1.inv hab1 hrun1 hno1
  have hab3 : g3.has_adjacency a b :=
    has_adjacency_step hr2.inv hab2 hop3 (by simp)
  have hab4 : g4.has_adjacency a b := run_keeps_adjacency hr3.inv hab3 hrun2 hno2
  have hgone : e ∉ g3.edge_ids_ := by
    by_cases hm : e ∈ g2.edge_ids_
    · obtain ⟨k, hk⟩ := List.mem_iff_getElem?.mp hm
      rw [erase_edge_of_present hr2.inv hk] at her
      simp only [Prod.mk.injEq, true_and] at her
      rw [← her]
      exact hr2.inv.edge_ids_asc.not_mem_erase_at hk
    · rw [erase_edge_of_absent g2 hm] at her
      simp at her
  obtain ⟨k, adj, hk, hadj, hb⟩ := (has_adjacency_iff hr4.inv.node_ids_asc a b).mp hab4
  refine ⟨hgone, hab4, ?_, fun hc => insert_edge_of_duplicate hr4.inv a b hc hk hadj hb⟩
  intro e2
  by_cases hc : g4.current_id_ < INT_MAX
  · rw [insert_edge_of_duplicate hr4.inv a b hc hk hadj hb]
    simp
  · rw [insert_edge_overflow g4 a b (not_lt.mp hc)]
    simp

theorem erased_edge_not_reinsertable_witness :
    Reachable two_nodes ∧
    two_nodes.insert_edge 1 2 = (.ok 3, link_made) ∧
    link_made.run [.insert_node 30] = some ([4], link_grown) ∧
    (∀ op ∈ ([.insert_node 30] : List (Op Nat)), op ≠ .erase_node 1) ∧
    link_grown.erase_edge 3 = (.ok (), link_erased) ∧
    link_erased.run [.erase_node 2] = some ([], link_stale) ∧
    (∀ op ∈ ([.erase_node 2] : List (Op Nat)), op ≠ .erase_node 1) ∧
    ((3 : Int) ∉ link_erased.edge_ids_ ∧ link_stale.has_adjacency 1 2 ∧
      (∀ e2, (link_stale.insert_edge 1 2).1 ≠ .ok e2) ∧
      (link_stale.current_id_ < INT_MAX →
        link_stale.insert_edge 1 2 = (.assert_failed, link_stale.with_edge 1 2))) ∧
    link_stale.insert_edge 1 2 =
      (.assert_failed, ⟨5, [10, 30], [[2], []], [1, 4], [⟨1, 2⟩], [5]⟩) :=
  have hr : Reachable two_nodes :=
    reachable_of_run [.insert_node 10, .insert_node 20] [1, 2] (by decide)
  ⟨hr, by decide, by decide, by decide, by decide, by decide, by decide,
    erased_edge_not_reinsertable two_nodes hr 1 2 3 link_made (by decide)
      [.insert_node 30] [4] link_grown (by decide) (by decide)
      link_erased (by decide)
      [.erase_node 2] [] link_stale (by decide) (by decide),
    by decide⟩

/-! ## Adjacency entries and edge records, erasures included -/

/-- An adjacency entry found after a returning call was there before the call,
or the call stored its edge. -/
theorem adjacency_origin {g : Graph α} (h : g.Inv) {op : Op α} {r : Option Int}
    {g1 : Graph α} (hop : g.apply op = (.ok r, g1)) {a b : Int}
    (hab : g1.has_adjacency a b) : g.has_adjacency a b ∨ g1.has_edge a b := by
  have h1 := h.step hop
  rw [has_adjacency_iff h1.node_ids_asc] at hab
  rw [has_adjacency_iff h.node_ids_asc]
  obtain ⟨k, adj, hk, hadj, hb⟩ := hab
  rcases apply_ok_cases h hop with ⟨p, -, -, -, rfl⟩ | ⟨id, k0, -, hk0, -, rfl⟩ |
    ⟨a0, b0, k0, adj0, -, -, hk0, hadj0, -, -, rfl⟩ | ⟨id, k0, -, hk0, -, rfl⟩
  · dsimp only at hk hadj
    rcases getElem?_append_singleton hadj with ⟨hlt, hadj1⟩ | ⟨hkl, hnil⟩
    · rw [List.getElem?_append_left (by rw [← h.adjacencies_len]; exact hlt)] at hk
      exact Or.inl ⟨k, adj, hk, hadj1, hb⟩
    · subst hnil
      exact absurd hb (List.not_mem_nil _)
  · dsimp only at hk hadj
    obtain ⟨m, hm, hkm, hpos⟩ := vec_erase_getElem?_origin hk
    obtain ⟨m1, hm1, hadjm, hpos1⟩ := vec_erase_getElem?_origin hadj
    have hmm : m = m1 := by
      by_cases c1 : m < k0 <;> by_cases c2 : m1 < k0 <;> simp [c1, c2] at hpos hpos1 <;> omega
    subst hmm
    exact Or.inl ⟨m, adj, hkm, hadjm, hb⟩
  · dsimp only [Graph.with_edge] at hk hadj
    rw [List.getElem?_set] at hadj
    by_cases hkk : k0 = k
    · subst hkk
      have hlen : k0 < g.adjacencies_.length := (List.getElem?_eq_some.mp hadj0).1
      simp only [if_true, hlen, Option.some.injEq] at hadj
      subst hadj
      rw [hk0] at hk
      have haa : a0 = a := Option.some.inj hk
      subst haa
      rcases List.mem_append.mp hb with hb1 | hb1
      · exact Or.inl ⟨k0, adj0, hk0, hadj0, hb1⟩
      · rw [List.mem_singleton] at hb1
        subst hb1
        refine Or.inr ?_
        show (⟨a0, b⟩ : Edge) ∈ g.edges_ ++ [⟨a0, b⟩]
        exact List.mem_append_right _ (List.mem_singleton_self _)
    · rw [if_neg hkk] at hadj
      exact Or.inl ⟨k, adj, hk, hadj, hb⟩
  · exact Or.inl ⟨k, adj, hk, hadj, hb⟩

/-- A stored edge record is still stored after a returning call, or the call
was the `erase_edge` that removed it. -/
theorem edge_survives {g : Graph α} (h : g.Inv) {op : Op α} {r : Option Int}
    {g1 : Graph α} (hop : g.apply op = (.ok r, g1)) {a b : Int}
    (hab : g.has_edge a b) : g1.has_edge a b ∨ (⟨a, b⟩ : Edge) ∈ g.erased_by op := by
  rcases apply_ok_cases h hop with ⟨p, -, -, -, rfl⟩ | ⟨id, k0, -, hk0, -, rfl⟩ |
    ⟨a0, b0, k0, adj0, -, -, hk0, hadj0, -, -, rfl⟩ | ⟨id, k0, rfl, hk0, -, rfl⟩
  · exact Or.inl hab
  · exact Or.inl hab
  · exact Or.inl (List.mem_append_left _ hab)
  · obtain ⟨m, hm⟩ := List.mem_iff_getElem?.mp hab
    by_cases hmk : m = k0
    · subst hmk
      refine Or.inr ?_
      simp [Graph.erased_by, edge_of_getElem h.edge_ids_asc hk0, hm]
    · exact Or.inl (List.getElem?_mem (vec_erase_getElem?_of_ne hm hmk))

/-- Along a run every adjacency entry has its edge stored or removed by an
`erase_edge` of the run. -/
theorem run_adjacency_origin {ops : List (Op α)} :
    ∀ {g : Graph α} {ids : List Int} {g1 : Graph α} (gone : List Edge),
      g.Inv → g.run ops = some (ids, g1) →
      (∀ a b, g.has_adjacency a b → g.has_edge a b ∨ (⟨a, b⟩ : Edge) ∈ gone) →
      ∀ a b, g1.has_adjacency a b →
        g1.has_edge a b ∨ (⟨a, b⟩ : Edge) ∈ gone ++ g.erased_records ops := by
  induction ops with
  | nil =>
    intro g ids g1 gone _ hrun hI a b hab
    simp only [Graph.run, Option.some.injEq, Prod.mk.injEq] at hrun
    rw [← hrun.2] at hab ⊢
    rcases hI a b hab with h1 | h1
    · exact Or.inl h1
    · exact Or.inr (List.mem_append_left _ h1)
  | cons op ops ih =>
    intro g ids g1 gone h hrun hI a b hab
    rw [Graph.run] at hrun
    split at hrun
    · rename_i r g2 hop
      split at hrun
      · rename_i ids2 g3 hrest
        simp only [Option.some.injEq, Prod.mk.injEq] at hrun
        rw [← hrun.2] at hab ⊢
        have hstep : ∀ c d, g2.has_adjacency c d →
            g2.has_edge c d ∨ (⟨c, d⟩ : Edge) ∈ gone ++ g.erased_by op := by
          intro c d hcd
          rcases adjacency_origin h hop hcd with hold | hnew
          · rcases hI c d hold with he | hg
            · rcases edge_survives h hop he with hs | hs
              · exact Or.inl hs
              · exact Or.inr (List.mem_append_right _ hs)
            · exact Or.inr (List.mem_append_left _ hg)
          · exact Or.inl hnew
        have := ih (gone ++ g.erased_by op) (h.step hop) hrest hstep a b hab
        have hsnd : (g.apply op).2 = g2 := by rw [hop]
        rw [Graph.erased_records, hsnd, ← List.append_assoc]
        exact this
      · exact absurd hrun (by simp)
    · exact absurd hrun (by simp)

/-- Every returning call keeps: a stored edge whose `from` is a stored node
has its adjacency entry, and the `from` of a stored edge is at most the
counter. -/
theorem live_edge_step {g : Graph α} (h : g.Inv)
    (hK : ∀ a b, g.has_edge a b → a ∈ g.node_ids_ → g.has_adjacency a b)
    (hL : ∀ a b, g.has_edge a b → a ≤ g.current_id_) {op : Op α} {r : Option Int}
    {g1 : Graph α} (hop : g.apply op = (.ok r, g1)) :
    (∀ a b, g1.has_edge a b → a ∈ g1.node_ids_ → g1.has_adjacency a b) ∧
    (∀ a b, g1.has_edge a b → a ≤ g1.current_id_) := by
  have h1 := h.step hop
  rcases apply_ok_cases h hop with ⟨p, rfl, -, -, hg⟩ | ⟨id, k0, rfl, hk0, -, hg⟩ |
    ⟨a0, b0, k0, adj0, rfl, -, hk0, hadj0, -, -, hg⟩ | ⟨id, k0, rfl, hk0, -, hg⟩
  · constructor
    · intro a b he hm
      have he0 : g.has_edge a b := by rw [hg] at he; exact he
      have hm0 : a ∈ g.node_ids_ ++ [g.current_id_ + 1] := by rw [hg] at hm; exact hm
      rcases List.mem_append.mp hm0 with hm1 | hm1
      · exact has_adjacency_step h (hK a b he0 hm1) hop (by simp)
      · rw [List.mem_singleton] at hm1
        have := hL a b he0
        omega
    · intro a b he
      have he0 : g.has_edge a b := by rw [hg] at he; exact he
      have := hL a b he0
      rw [hg]
      show a ≤ g.current_id_ + 1
      omega
  · constructor
    · intro a b he hm
      have he0 : g.has_edge a b := by rw [hg] at he; exact he
      have hm0 : a ∈ vec_erase g.node_ids_ k0 := by rw [hg] at hm; exact hm
      have hne : a ≠ id := by
        intro heq
        rw [heq] at hm0
        exact h.node_ids_asc.not_mem_erase_at hk0 hm0
      exact has_adjacency_step h (hK a b he0 (vec_erase_subset _ _ hm0)) hop
        (by simpa using fun heq : id = a => hne heq.symm)
    · intro a b he
      have he0 : g.has_edge a b := by rw [hg] at he; exact he
      rw [hg]
      exact hL a b he0
  · have hlen : k0 < g.adjacencies_.length := (List.getElem?_eq_some.mp hadj0).1
    have ha0 : a0 ≤ g.current_id_ := (h.node_ids_bound a0 (List.getElem?_mem hk0)).2
    constructor
    · intro a b he hm
      have he0 : (⟨a, b⟩ : Edge) ∈ g.edges_ ++ [⟨a0, b0⟩] := by rw [hg] at he; exact he
      have hm0 : a ∈ g.node_ids_ := by rw [hg] at hm; exact hm
      rcases List.mem_append.mp he0 with hold | hnew
      · exact has_adjacency_step h (hK a b hold hm0) hop (by simp)
      · rw [List.mem_singleton] at hnew
        have ha : a = a0 := congrArg Edge.from_ hnew
        have hb : b = b0 := congrArg Edge.to_ hnew
        subst ha
        subst hb
        rw [has_adjacency_iff h1.node_ids_asc]
        refine ⟨k0, adj0 ++ [b], ?_, ?_, List.mem_append_right _ (List.mem_singleton_self _)⟩
        · rw [hg]
          exact hk0
        · rw [hg]
          show (g.adjacencies_.set k0 (adj0 ++ [b]))[k0]? = some (adj0 ++ [b])
          rw [List.getElem?_set]
          simp [hlen]
    · intro a b he
      have he0 : (⟨a, b⟩ : Edge) ∈ g.edges_ ++ [⟨a0, b0⟩] := by rw [hg] at he; exact he
      rw [hg]
      show a ≤ g.current_id_ + 1
      rcases List.mem_append.mp he0 with hold | hnew
      · have := hL a b hold
        omega
      · rw [List.mem_singleton] at hnew
        have ha : a = a0 := congrArg Edge.from_ hnew
        omega
  · constructor
    · intro a b he hm
      have he0 : g.has_edge a b := by
        rw [hg] at he
        exact vec_erase_subset g.edges_ k0 he
      have hm0 : a ∈ g.node_ids_ := by rw [hg] at hm; exact hm
      exact has_adjacency_step h (hK a b he0 hm0) hop (by simp)
    · intro a b he
      have he0 : g.has_edge a b := by
        rw [hg] at he
        exact vec_erase_subset g.edges_ k0 he
      rw [hg]
      exact hL a b he0

/-- In every reachable state a stored edge whose `from` is a stored node has
its adjacency entry. -/
theorem Reachable.live_edge {g : Graph α} (hr : Reachable g) :
    (∀ a b, g.has_edge a b → a ∈ g.node_ids_ → g.has_adjacency a b) ∧
    (∀ a b, g.has_edge a b → a ≤ g.current_id_) := by
  induction hr with
  | init =>
    constructor
    · intro a b he
      simp [Graph.has_edge, Graph.empty] at he
    · intro a b he
      simp [Graph.has_edge, Graph.empty] at he
  | step g op r g1 hr0 hop ih => exact live_edge_step hr0.inv ih.1 ih.2 hop

/-- A run followed by one more returning call is a run. -/
theorem run_snoc {ops : List (Op α)} :
    ∀ {g0 : Graph α} {ids : List Int} {g : Graph α} {op : Op α} {r : Option Int}
      {g1 : Graph α}, g0.run ops = some (ids, g) → g.apply op = (.ok r, g1) →
      g0.run (ops ++ [op]) = some (ids ++ r.toList, g1) := by
  induction ops with
  | nil =>
    intro g0 ids g op r g1 hrun hop
    simp only [Graph.run, Option.some.injEq, Prod.mk.injEq] at hrun
    obtain ⟨rfl, rfl⟩ := hrun
    simp [Graph.run, hop]
  | cons o ops ih =>
    intro g0 ids g op r g1 hrun hop
    rw [Graph.run] at hrun
    split at hrun
    · rename_i r2 g2 hop2
      split at hrun
      · rename_i ids2 g3 hrest
        simp only [Option.some.injEq, Prod.mk.injEq] at hrun
        obtain ⟨rfl, rfl⟩ := hrun
        have := ih hrest hop
        simp [Graph.run, hop2, this]
      · exact absurd hrun (by simp)
    · exact absurd hrun (by simp)

/-- Every reachable state is the final state of a run from the empty graph. -/
theorem Reachable.exists_run {g : Graph α} (hr : Reachable g) :
    ∃ ops ids, (Graph.empty : Graph α).run ops = some (ids, g) := by
  induction hr with
  | init => exact ⟨[], [], rfl⟩
  | step g op r g1 _ hop ih =>
    obtain ⟨ops, ids, hrun⟩ := ih
    exact ⟨ops ++ [op], ids ++ r.toList, run_snoc hrun hop⟩

/-- C8, amended: in every state reached from the empty graph by returning
calls, a stored edge `(from, to)` whose `from` is a stored node has `to` in the
adjacency list of `from`; and for the sequence of calls that led there, an
entry `to` in the adjacency list of a stored node `from` has a stored edge
`(from, to)` or an `erase_edge` of the sequence removed an edge record
`(from, to)`. So without `erase_edge` every entry has its edge, without
`erase_node` every edge has its entry, and with neither the two agree. -/
theorem adjacency_consistent_up_to_erasure (g : Graph α) (hr : Reachable g) :
    (∀ a b, g.has_edge a b → a ∈ g.node_ids_ → g.has_adjacency a b) ∧
    (∃ ops ids, (Graph.empty : Graph α).run ops = some (ids, g)) ∧
    (∀ ops ids, (Graph.empty : Graph α).run ops = some (ids, g) →
      (∀ a b, g.has_adjacency a b →
        g.has_edge a b ∨ (⟨a, b⟩ : Edge) ∈ (Graph.empty : Graph α).erased_records ops) ∧
      ((∀ op ∈ ops, op.is_erase_edge = false) →
        ∀ a b, g.has_adjacency a b → g.has_edge a b) ∧
      ((∀ op ∈ ops, op.is_erase_node = false) →
        ∀ a b, g.has_edge a b → g.has_adjacency a b) ∧
      ((∀ op ∈ ops, op.is_erase_edge = false ∧ op.is_erase_node = false) →
        g.adjacency_consistent)) := by
  refine ⟨hr.live_edge.1, hr.exists_run, ?_⟩
  intro ops ids hrun
  obtain ⟨c1, c2, c3⟩ := run_from_empty_consistent ops ids g hrun
  refine ⟨?_, c1, c2, c3⟩
  intro a b hab
  have hbase : ∀ c d, (Graph.empty : Graph α).has_adjacency c d →
      (Graph.empty : Graph α).has_edge c d ∨ (⟨c, d⟩ : Edge) ∈ ([] : List Edge) := by
    rintro c d ⟨adj, hadj, -⟩
    simp [Graph.adjacency, Graph.empty] at hadj
  have := run_adjacency_origin [] Graph.Inv.init hrun hbase a b hab
  simpa using this

theorem adjacency_consistent_up_to_erasure_witness :
    Reachable gap_nodes ∧ gap_nodes.has_edge 1 3 ∧ (1 : Int) ∈ gap_nodes.node_ids_ ∧
    gap_nodes.has_adjacency 1 3 ∧
    (Graph.empty : Graph Nat).run [.insert_node 10, .insert_edge 1 2, .erase_edge 2] =
      some ([1, 2], stale_adjacency) ∧
    stale_adjacency.has_adjacency 1 2 ∧
    (Graph.empty : Graph Nat).erased_records
      [.insert_node 10, .insert_edge 1 2, .erase_edge 2] = [⟨1, 2⟩] ∧
    (stale_adjacency.has_edge 1 2 ∨
      (⟨1, 2⟩ : Edge) ∈ (Graph.empty : Graph Nat).erased_records
        [.insert_node 10, .insert_edge 1 2, .erase_edge 2]) ∧
    (Graph.empty : Graph Nat).run
        [.insert_node 10, .insert_node 20, .insert_edge 1 2, .insert_edge 2 1] =
      some ([1, 2, 3, 4], two_edges) ∧
    two_edges.adjacency_consistent :=
  have hr : Reachable gap_nodes :=
    reachable_of_run
      [.insert_node 10, .insert_node 20, .insert_node 30, .insert_edge 1 3, .erase_node 2]
      [1, 2, 3, 4] (by decide)
  have he : gap_nodes.has_edge 1 3 := (by decide : (⟨1, 3⟩ : Edge) ∈ gap_nodes.edges_)
  have hrun1 : (Graph.empty : Graph Nat).run
      [.insert_node 10, .insert_edge 1 2, .erase_edge 2] = some ([1, 2], stale_adjacency) := by
    decide
  have ha : stale_adjacency.has_adjacency 1 2 := ⟨[2], by decide, by decide⟩
  have hrun2 : (Graph.empty : Graph Nat).run
      [.insert_node 10, .insert_node 20, .insert_edge 1 2, .insert_edge 2 1] =
      some ([1, 2, 3, 4], two_edges) := by
    decide
  ⟨hr, he, by decide,
    (adjacency_consistent_up_to_erasure gap_nodes hr).1 1 3 he (by decide),
    hrun1, ha, by decide,
    ((adjacency_consistent_up_to_erasure stale_adjacency
      (reachable_of_run _ _ hrun1)).2.2 _ _ hrun1).1 1 2 ha,
    hrun2,
    ((adjacency_consistent_up_to_erasure two_edges
      (reachable_of_run _ _ hrun2)).2.2 _ _ hrun2).2.2.2 (by decide)⟩

end Example
